import Mathlib

/-!
Verification development for the kamaros versioned content store (Rust core).

The definitions below are a shallow embedding of the Rust sources under
src/core/src: bytes are modelled as strings, the storage backend follows the
in-memory adapter of infrastructure/memory_storage.rs (an association list
from path to contents), hashing / diffing / encryption are abstract function
parameters exactly as the use cases are generic over their port traits, and
the two stateful use cases (save_checkpoint.rs, restore_version.rs) are
written in a small explicit state-plus-error monad that mirrors Rust
mutable-reference semantics: mutations performed before an error are kept,
as they are through a Rust mutable borrow.
-/

namespace Kamaros

/-- Error kinds of ports/mod.rs PortError. Payloads are the format strings. -/
inductive PortError where
  | io : String → PortError
  | notFound : String → PortError
  | patchFailed : String → PortError
  | compressionError : String → PortError
  | encryptionError : String → PortError
deriving DecidableEq, Repr

/-! ## String helpers mirroring the Rust std string operations used -/

/-- Model of Rust str starts_with on strings. -/
def startsWithS (s pat : String) : Bool :=
  pat.data.isPrefixOf s.data

/-- Drop the first n bytes of a string (model of slicing and strip of a known
leading part). -/
def dropS (s : String) (n : Nat) : String :=
  String.mk (s.data.drop n)

/-- Take the first n bytes of a string (model of a byte-range slice). -/
def takeS (s : String) (n : Nat) : String :=
  String.mk (s.data.take n)

/-- Model of Rust str ends_with for a single character. -/
def endsWithChar (s : String) (c : Char) : Bool :=
  s.data.getLast? = some c

/-- Model of Rust str contains for a single character. -/
def containsChar (s : String) (c : Char) : Bool :=
  s.data.contains c

/-- Split a character list at every occurrence of the separator. -/
def splitOnCharAux (c : Char) : List Char → List Char → List (List Char)
  | [], acc => [acc.reverse]
  | x :: xs, acc =>
    if x = c then acc.reverse :: splitOnCharAux c xs []
    else splitOnCharAux c xs (x :: acc)

/-- Split a string on a character; always returns at least one piece. -/
def splitOnChar (s : String) (c : Char) : List String :=
  (splitOnCharAux c s.data []).map String.mk

/-- Remove one trailing carriage return, used for the line endings handled by
Rust str lines. -/
def stripCR (s : String) : String :=
  if endsWithChar s '\r' then String.mk s.data.dropLast else s

/-- Model of Rust str lines: split at every newline, treat a carriage return
directly before a newline as part of the terminator, and do not yield a final
empty line for a trailing newline. Pieces other than the last were followed
by a newline in the input, so only they have a trailing carriage return
removed. -/
def rustLines (s : String) : List String :=
  let pieces := splitOnChar s '\n'
  match pieces.getLast? with
  | some last =>
      if last = "" then pieces.dropLast.map stripCR
      else pieces.dropLast.map stripCR ++ [last]
  | none => []

/-- Model of Rust slice join with a newline separator. -/
def joinNL : List String → String
  | [] => ""
  | [x] => x
  | x :: xs => x ++ "\n" ++ joinNL xs

/-! ## SimpleDiff adapter (infrastructure/simple_diff.rs)

The Rust apply_patch first returns the text unchanged for an empty patch.
Otherwise it collects text.lines(), then runs a parsing loop over the patch
lines in which every branch only advances the index (header lines are
skipped and no other line kind is handled), so the loop has no effect, and
the function returns Ok of the collected lines joined with a newline. The
function never returns an error. -/

namespace SimpleDiff

/-- Shallow embedding of SimpleDiff apply_patch (simple_diff.rs lines 37-75).
The patch-parsing loop of the source mutates nothing except its own loop
index, so the returned value is the join of the line split of the input
text, independently of the patch contents. -/
def apply_patch (text patch : String) : Except PortError String :=
  if patch = "" then Except.ok text
  else Except.ok (joinNL (rustLines text))

end SimpleDiff

/-- C1: the Diff capability contract requires apply(old, diff(old, new)) = new
and a patch-failed error for unapplicable patches. The shipped SimpleDiff
adapter returns Ok for every input and its result never depends on the patch:
for old = "a\n" the result is "a\n" or "a", so no patch string whatsoever --
in particular not the one compute_diff("a\n", "b\n") returns -- can make
apply_patch produce the new text "b\n", and no input is ever reported as a
patch-failed error. -/
theorem simpleDiff_apply_patch_ignores_patch :
    (∀ patch : String, SimpleDiff.apply_patch "a\n" patch ≠ Except.ok "b\n") ∧
    (∀ text patch : String, (SimpleDiff.apply_patch text patch).isOk = true) := by
  constructor
  · intro patch
    by_cases h : patch = "" <;>
      simp only [SimpleDiff.apply_patch, h, if_true, if_false, reduceIte] <;>
      intro hc <;> exact absurd (Except.ok.inj hc) (by decide)
  · intro text patch
    by_cases h : patch = "" <;>
      simp [SimpleDiff.apply_patch, h, Except.isOk, Except.toBool]

/-! ## Domain model (domain/manifest.rs, domain/version.rs)

The structures mirror the Rust structs, with Rust HashMap fields modelled as
association lists. The encrypted field: the struct declarations in
domain/version.rs (FileState) and domain/manifest.rs (FileEntry) do NOT
declare it, but the application layer (save_checkpoint.rs lines 210, 306,
316, 320, restore_version.rs lines 116, 135, 162, 248) and the test module
of garbage_collect.rs (lines 136, 143) read and write it on these very
types. The embedding includes the field so that the application code can be
embedded; claim C4 about the declared wire format is settled against the
field lists of the struct declarations, given separately below. -/

/-- FileType of domain/manifest.rs. -/
inductive FileType where
  | text : FileType
  | binary : FileType
deriving DecidableEq, Repr

/-- FileEntry of domain/manifest.rs (working-set record at HEAD per path),
plus the encrypted field required by the application layer. -/
structure FileEntry where
  inode_id : String
  file_type : FileType
  current_hash : Option String
  created : String
  modified : String
  encrypted : Option Bool
deriving DecidableEq, Repr

/-- FileState of domain/version.rs (per-path snapshot within a version),
plus the encrypted field required by the application layer. -/
structure FileState where
  inode_id : String
  hash : Option String
  content_ref : Option String
  deleted : Option Bool
  encrypted : Option Bool
deriving DecidableEq, Repr

/-- Version of domain/version.rs (DAG node). -/
structure Version where
  id : String
  parent_id : Option String
  timestamp : String
  message : String
  author : String
  file_states : List (String × FileState)
deriving DecidableEq, Repr

/-- ProjectMetadata of domain/manifest.rs. -/
structure ProjectMetadata where
  name : String
  description : Option String
  created : String
  last_modified : String
  author : Option String
deriving DecidableEq, Repr

/-- RenameEntry of domain/manifest.rs. -/
structure RenameEntry where
  from_path : String
  to_path : String
  timestamp : String
  version_id : String
deriving DecidableEq, Repr

/-- Manifest of domain/manifest.rs. -/
structure Manifest where
  format_version : String
  metadata : ProjectMetadata
  file_map : List (String × FileEntry)
  version_history : List Version
  refs : List (String × String)
  rename_log : List RenameEntry
deriving DecidableEq, Repr

/-! ## Wire format of the declared domain structs (claim C4)

Serde derive emits exactly the declared fields, applying the rename
attributes; the only skip_serializing_if attribute in version.rs and
manifest.rs is on the deleted field of FileState. The following definitions
list, in declaration order, the JSON keys emitted when serializing a
FileState respectively FileEntry per the struct declarations of
domain/version.rs lines 19-31 and domain/manifest.rs lines 33-46. -/

/-- JSON keys emitted for a FileState by the declaration in
domain/version.rs: inodeId, hash, contentRef, and deleted only when set.
No encrypted key is declared. -/
def fileStateWireKeys (fs : FileState) : List String :=
  ["inodeId", "hash", "contentRef"] ++
    (match fs.deleted with
     | some _ => ["deleted"]
     | none => [])

/-- JSON keys emitted for a FileEntry by the declaration in
domain/manifest.rs: inodeId, type, currentHash, created, modified.
No encrypted key is declared. -/
def fileEntryWireKeys (_ : FileEntry) : List String :=
  ["inodeId", "type", "currentHash", "created", "modified"]

/-- C4: the claim says FileState and FileEntry each carry an optional
encrypted flag emitted as an encrypted key in the manifest JSON. The struct
declarations in domain/version.rs and domain/manifest.rs declare no such
field, so serialization can never emit it: the encrypted key is absent from
the emitted key list of every FileState and every FileEntry. (The
application layer and the garbage_collect.rs test module do use such a
field on these types, so the declarations contradict their own callers;
see the results entry.) -/
theorem fileState_fileEntry_wire_no_encrypted :
    (∀ fs : FileState, "encrypted" ∉ fileStateWireKeys fs) ∧
    (∀ e : FileEntry, "encrypted" ∉ fileEntryWireKeys e) := by
  constructor
  · intro fs
    cases h : fs.deleted <;> simp [fileStateWireKeys, h]
  · intro e
    simp [fileEntryWireKeys]

/-! ## Association list operations modelling Rust HashMap access -/

/-- HashMap insert: replace the binding if the key is present, else add it. -/
def aInsert {β : Type} : List (String × β) → String → β → List (String × β)
  | [], k, v => [(k, v)]
  | (k1, v1) :: rest, k, v =>
    if k1 = k then (k, v) :: rest else (k1, v1) :: aInsert rest k v

/-- HashMap get_mut followed by a field update: modify the binding if the key
is present, else leave the list unchanged. -/
def aUpdate {β : Type} : List (String × β) → String → (β → β) → List (String × β)
  | [], _, _ => []
  | (k1, v1) :: rest, k, f =>
    if k1 = k then (k1, f v1) :: rest else (k1, v1) :: aUpdate rest k f

theorem lookup_aInsert_self {β : Type} (l : List (String × β)) (k : String) (v : β) :
    List.lookup k (aInsert l k v) = some v := by
  induction l with
  | nil => simp [aInsert, List.lookup]
  | cons hd tl ih =>
    obtain ⟨k1, v1⟩ := hd
    by_cases h : k1 = k
    · subst h
      simp [aInsert, List.lookup]
    · have hb : (k == k1) = false := beq_eq_false_iff_ne.mpr (Ne.symm h)
      simp [aInsert, h, List.lookup, hb, ih]

theorem lookup_aInsert_of_ne {β : Type} (l : List (String × β)) (k k2 : String) (v : β)
    (h : k2 ≠ k) : List.lookup k2 (aInsert l k v) = List.lookup k2 l := by
  have hb : (k2 == k) = false := beq_eq_false_iff_ne.mpr h
  induction l with
  | nil => simp [aInsert, List.lookup, hb]
  | cons hd tl ih =>
    obtain ⟨k1, v1⟩ := hd
    by_cases h1 : k1 = k
    · subst h1
      simp [aInsert, List.lookup, hb]
    · simp [aInsert, h1, List.lookup, ih]

theorem lookup_aUpdate_self {β : Type} (l : List (String × β)) (k : String) (f : β → β) :
    List.lookup k (aUpdate l k f) = (List.lookup k l).map f := by
  induction l with
  | nil => simp [aUpdate, List.lookup]
  | cons hd tl ih =>
    obtain ⟨k1, v1⟩ := hd
    by_cases h : k1 = k
    · subst h
      simp [aUpdate, List.lookup]
    · have hb : (k == k1) = false := beq_eq_false_iff_ne.mpr (Ne.symm h)
      simp [aUpdate, h, List.lookup, hb, ih]

theorem lookup_aUpdate_of_ne {β : Type} (l : List (String × β)) (k k2 : String) (f : β → β)
    (h : k2 ≠ k) : List.lookup k2 (aUpdate l k f) = List.lookup k2 l := by
  have hb : (k2 == k) = false := beq_eq_false_iff_ne.mpr h
  induction l with
  | nil => simp [aUpdate]
  | cons hd tl ih =>
    obtain ⟨k1, v1⟩ := hd
    by_cases h1 : k1 = k
    · subst h1
      simp [aUpdate, List.lookup, hb]
    · simp [aUpdate, h1, List.lookup, ih]

/-! ## Storage model (infrastructure/memory_storage.rs)

A flat path namespace mapping path strings to byte strings. -/

/-- Storage state: association list from path to contents. -/
abbrev Store := List (String × String)

/-- MemoryStorage read: the stored value, or a not-found error. -/
def Store.readS (st : Store) (p : String) : Except PortError String :=
  match List.lookup p st with
  | some v => Except.ok v
  | none => Except.error (PortError.notFound p)

/-- MemoryStorage write: insert or overwrite. -/
def Store.writeS (st : Store) (p v : String) : Store :=
  aInsert st p v

/-- MemoryStorage delete: remove the binding, idempotent. -/
def Store.deleteS (st : Store) (p : String) : Store :=
  st.filter (fun kv => kv.1 != p)

/-- MemoryStorage exists. -/
def Store.existsS (st : Store) (p : String) : Bool :=
  (List.lookup p st).isSome

/-- MemoryStorage size: byte count, or a not-found error. -/
def Store.sizeS (st : Store) (p : String) : Except PortError Nat :=
  match List.lookup p st with
  | some v => Except.ok v.length
  | none => Except.error (PortError.notFound p)

/-- MemoryStorage list: keys below the directory (a trailing slash is added
when missing), with the directory part removed, keeping only direct children
(no further slash in the remainder). -/
def Store.listS (st : Store) (dir : String) : List String :=
  let pfx := if endsWithChar dir '/' then dir else dir ++ "/"
  ((st.map Prod.fst).filterMap (fun k =>
      if startsWithS k pfx then some (dropS k pfx.length) else none)).filter
    (fun k => !(containsChar k '/'))

/-! ## Use-case state monad

The use cases receive a mutable manifest and a storage port. Both are
modelled as one state record; computations return a result or an error
together with the state they leave behind, matching Rust mutable-reference
semantics where mutations performed before an error are visible to the
caller. -/

/-- State owned by a use case invocation. -/
structure St where
  manifest : Manifest
  storage : Store
deriving DecidableEq, Repr

/-- Outcome of a stateful step. -/
inductive Res (α : Type) where
  | ok : α → St → Res α
  | err : PortError → St → Res α
deriving DecidableEq, Repr

/-- Stateful fallible computation. -/
abbrev M (α : Type) : Type := St → Res α

/-- Return a value without touching the state. -/
def M.pure {α : Type} (a : α) : M α := fun s => Res.ok a s

/-- Sequence two computations, propagating errors. -/
def M.bind {α β : Type} (x : M α) (f : α → M β) : M β := fun s =>
  match x s with
  | Res.ok a s1 => f a s1
  | Res.err e s1 => Res.err e s1

/-- Abort with an error, keeping the state. -/
def M.throw {α : Type} (e : PortError) : M α := fun s => Res.err e s

/-- Observe the current state. -/
def M.getSt : M St := fun s => Res.ok s s

/-- Lift a pure fallible value. -/
def M.liftE {α : Type} : Except PortError α → M α
  | Except.ok a => M.pure a
  | Except.error e => M.throw e

/-- Mutate the manifest in place. -/
def M.modifyManifest (f : Manifest → Manifest) : M Unit := fun s =>
  Res.ok () { s with manifest := f s.manifest }

/-- storage.read through the port. -/
def M.readF (p : String) : M String := fun s =>
  match s.storage.readS p with
  | Except.ok v => Res.ok v s
  | Except.error e => Res.err e s

/-- storage.write through the port. -/
def M.writeF (p v : String) : M Unit := fun s =>
  Res.ok () { s with storage := s.storage.writeS p v }

/-- storage.delete through the port. -/
def M.deleteF (p : String) : M Unit := fun s =>
  Res.ok () { s with storage := s.storage.deleteS p }

/-- storage.exists through the port. -/
def M.existsF (p : String) : M Bool := fun s =>
  Res.ok (s.storage.existsS p) s

/-- Capability ports the use cases are generic over: hash, diff compute,
diff apply, encrypt, decrypt. The shipped adapters are SHA-256, the similar
crate, and AES-256-GCM; the engine only assumes the trait interfaces. -/
structure Ports where
  hashF : String → String
  diffF : String → String → String
  applyF : String → String → Except PortError String
  encryptF : String → String → String
  decryptF : String → String → Except PortError String

/-! ## Save checkpoint use case (application/save_checkpoint.rs) -/

/-- FileChange of save_checkpoint.rs: a detected change. -/
inductive FileChange where
  | added : String → String → FileChange
  | modified : String → String → String → FileChange
  | deleted : String → FileChange
deriving DecidableEq, Repr

/-- Output record of the save checkpoint use case. -/
structure SaveCheckpointOutput where
  version_id : String
  files_changed : Nat
  files_added : Nat
  files_deleted : Nat
deriving DecidableEq, Repr

/-- Bool test for the text file type. -/
def FileType.isTextB : FileType → Bool
  | FileType.text => true
  | FileType.binary => false

/-- Loop body of identify_changes over the listing of content/ (lines
136-165): read each file, hash it, and classify it against the file_map
entry. -/
def identifyLoop (P : Ports) (m : Manifest) (st : Store) :
    List String → Except PortError (List FileChange)
  | [] => Except.ok []
  | f :: rest => do
    let content ← st.readS ("content/" ++ f)
    let ch := P.hashF content
    let tail ← identifyLoop P m st rest
    match List.lookup f m.file_map with
    | some fe =>
      match fe.current_hash with
      | some old =>
        if old ≠ ch then Except.ok (FileChange.modified f old ch :: tail)
        else Except.ok tail
      | none => Except.ok (FileChange.added f ch :: tail)
    | none => Except.ok (FileChange.added f ch :: tail)

/-- identify_changes (lines 127-175): classify the listing of content/ as
added or modified, then every file_map path missing from the listing as
deleted. -/
def identify_changes (P : Ports) (m : Manifest) (st : Store) :
    Except PortError (List FileChange) := do
  let current := st.listS "content/"
  let adds ← identifyLoop P m st current
  let dels := m.file_map.filterMap (fun pe =>
    if current.contains pe.1 then none else some (FileChange.deleted pe.1))
  Except.ok (adds ++ dels)

/-- Body for one modified text file in process_text_modifications (lines
225-270): read the new working copy, read and possibly decrypt the old blob,
compute the reverse patch new to old, possibly encrypt it, and write it to
the deltas area. -/
def processTextOne (P : Ports) (key : Option String) (version_id : String)
    (m : Manifest) (path old_hash : String) : M Unit :=
  let fe := List.lookup path m.file_map
  let is_text := (fe.map (fun e => e.file_type.isTextB)).getD false
  if is_text then
    M.bind (M.readF ("content/" ++ path)) (fun new_text =>
    M.bind (M.readF (".store/blobs/" ++ old_hash)) (fun old0 =>
    let was_encrypted := ((fe.bind FileEntry.encrypted).getD false)
    M.bind
      (if was_encrypted then
        match key with
        | none => M.throw (PortError.encryptionError "Key required for encrypted history")
        | some k => M.liftE (P.decryptF k old0)
      else M.pure old0) (fun old_text =>
    let reverse_patch := P.diffF new_text old_text
    let path_hash := P.hashF path
    let patch_path := ".store/deltas/" ++ version_id ++ "_" ++ takeS path_hash 16 ++ ".patch"
    let patch_data := match key with
      | some k => P.encryptF k reverse_patch
      | none => reverse_patch
    M.writeF patch_path patch_data)))
  else M.pure ()

/-- process_text_modifications (lines 218-273): only modified changes whose
file_map entry is a text file produce a reverse patch. -/
def processTextLoop (P : Ports) (key : Option String) (version_id : String)
    (m : Manifest) : List FileChange → M Unit
  | [] => M.pure ()
  | FileChange.modified path old_hash _ :: rest =>
    M.bind (processTextOne P key version_id m path old_hash) (fun _ =>
      processTextLoop P key version_id m rest)
  | _ :: rest => processTextLoop P key version_id m rest

/-- Body for one added or modified file in process_full_files (lines
185-212): write the full blob if absent (content-addressed deduplication),
then update the existing file_map entry through get_mut. A path without a
file_map entry is left untouched. -/
def processFullOne (P : Ports) (key : Option String) (now : String)
    (path hv : String) : M Unit :=
  let blob_path := ".store/blobs/" ++ hv
  M.bind (M.existsF blob_path) (fun ex =>
  M.bind
    (if ex then M.pure ()
     else
       M.bind (M.readF ("content/" ++ path)) (fun content =>
       let data := match key with
         | some k => P.encryptF k content
         | none => content
       M.writeF blob_path data)) (fun _ =>
  M.modifyManifest (fun m =>
    { m with file_map := aUpdate m.file_map path (fun e =>
        { e with current_hash := some hv, modified := now,
                 encrypted := some key.isSome }) })))

/-- process_full_files (lines 179-215). -/
def processFullLoop (P : Ports) (key : Option String) (now : String) :
    List FileChange → M Unit
  | [] => M.pure ()
  | FileChange.added path hv :: rest =>
    M.bind (processFullOne P key now path hv) (fun _ => processFullLoop P key now rest)
  | FileChange.modified path _ hv :: rest =>
    M.bind (processFullOne P key now path hv) (fun _ => processFullLoop P key now rest)
  | FileChange.deleted _ :: rest => processFullLoop P key now rest

/-- One change applied to the cloned file states in create_version (lines
297-338). -/
def applyChangeToStates (P : Ports) (key : Option String) (version_id : String)
    (m : Manifest) (acc : List (String × FileState)) :
    FileChange → List (String × FileState)
  | FileChange.added path hv =>
    let fe := List.lookup path m.file_map
    aInsert acc path
      { inode_id := (fe.map FileEntry.inode_id).getD "",
        hash := some hv, content_ref := none, deleted := none,
        encrypted := some key.isSome }
  | FileChange.modified path _ hv =>
    let fe := List.lookup path m.file_map
    let dflt : FileState :=
      { inode_id := (fe.map FileEntry.inode_id).getD "",
        hash := some hv, content_ref := none, deleted := none,
        encrypted := some key.isSome }
    let acc1 := if (List.lookup path acc).isSome then acc else aInsert acc path dflt
    let is_text := (fe.map (fun e => e.file_type.isTextB)).getD false
    aUpdate acc1 path (fun st0 =>
      let st1 := { st0 with hash := some hv, encrypted := some key.isSome }
      if is_text then
        let cref := ".store/deltas/" ++ version_id ++ "_" ++ takeS (P.hashF path) 16 ++ ".patch"
        { st1 with content_ref := some cref }
      else st1)
  | FileChange.deleted path =>
    aUpdate acc path (fun st0 => { st0 with deleted := some true })

/-- create_version (lines 276-348): clone the file states of the parent
named by parent_id (empty when the parent id is absent from the history or
parent_id is None), then fold the changes over them. The parent_id argument
is stored verbatim in the new Version. -/
def create_version (P : Ports) (version_id : String) (parent_id : Option String)
    (key : Option String) (message author now : String) (m : Manifest)
    (changes : List FileChange) : Version :=
  let base :=
    match parent_id with
    | some pid =>
      ((m.version_history.find? (fun v => v.id == pid)).map Version.file_states).getD []
    | none => []
  { id := version_id, parent_id := parent_id, timestamp := now,
    message := message, author := author,
    file_states := changes.foldl (applyChangeToStates P key version_id m) base }

/-- count_changes (lines 356-370). -/
def count_changes : List FileChange → Nat × Nat × Nat
  | [] => (0, 0, 0)
  | c :: rest =>
    let (a, mo, d) := count_changes rest
    match c with
    | FileChange.added _ _ => (a + 1, mo, d)
    | FileChange.modified _ _ _ => (a, mo + 1, d)
    | FileChange.deleted _ => (a, mo, d + 1)

/-- SaveCheckpointUseCase execute (lines 74-124). The fresh UUID and the
current timestamp are nondeterministic inputs of the Rust code and are
passed as the version_id and now parameters. The head ref is captured at
entry by a plain map lookup, with no special treatment of the empty
string. -/
def SaveCheckpoint.execute (P : Ports) (key : Option String)
    (message author version_id now : String) : M SaveCheckpointOutput := fun s0 =>
  let current_version_id := List.lookup "head" s0.manifest.refs
  match identify_changes P s0.manifest s0.storage with
  | Except.error e => Res.err e s0
  | Except.ok changes =>
    if changes.isEmpty then
      Res.err (PortError.patchFailed "No changes to commit") s0
    else
      (M.bind (processTextLoop P key version_id s0.manifest changes) (fun _ =>
       M.bind (processFullLoop P key now changes) (fun _ =>
       M.bind M.getSt (fun s2 =>
       let version := create_version P version_id current_version_id key message author
         now s2.manifest changes
       M.bind (M.modifyManifest (fun m =>
         { m with refs := aInsert m.refs "head" version_id })) (fun _ =>
       M.bind (M.modifyManifest (fun m =>
         { m with metadata := { m.metadata with last_modified := now } })) (fun _ =>
       M.bind (M.modifyManifest (fun m =>
         { m with version_history := m.version_history ++ [version] })) (fun _ =>
       let counts := count_changes changes
       M.pure { version_id := version_id, files_changed := counts.2.1,
                files_added := counts.1, files_deleted := counts.2.2 }))))))) s0

/-! ## Concrete checkpoint scenarios -/

/-- Demonstration ports: an injective toy hash, a trivial differ, and
identity encryption. The checkpoint claims below do not depend on the port
behaviour beyond the trait interfaces. -/
def portsDemo : Ports :=
  { hashF := fun s => "h-" ++ s,
    diffF := fun _ _ => "",
    applyF := fun t _ => Except.ok t,
    encryptF := fun _ d => d,
    decryptF := fun _ d => Except.ok d }

/-- Minimal metadata record. -/
def metaDemo : ProjectMetadata :=
  { name := "demo", description := none, created := "T0",
    last_modified := "T0", author := none }

/-- Fresh manifest as produced at creation: empty maps and the single ref
head bound to the empty string (no checkpoints yet). -/
def manifestFresh : Manifest :=
  { format_version := "1.0.0", metadata := metaDemo, file_map := [],
    version_history := [], refs := [("head", "")], rename_log := [] }

/-- Working copy holding one new text file. -/
def storeFresh : Store := [("content/a.txt", "hi")]

/-- State before the first checkpoint. -/
def stFresh : St := { manifest := manifestFresh, storage := storeFresh }

/-- Result of the first checkpoint on the fresh state. -/
def ckptFreshRes : Res SaveCheckpointOutput :=
  SaveCheckpoint.execute portsDemo none "init" "alice" "v-new" "T1" stFresh

/-- Parent ids of the version history in the final state of a checkpoint
run, or none if the run failed. -/
def Res.historyParents : Res SaveCheckpointOutput → Option (List (Option String))
  | Res.ok _ s => some (s.manifest.version_history.map Version.parent_id)
  | Res.err _ _ => none

/-- file_map binding of a path in the final state of a checkpoint run, or
none if the run failed. -/
def Res.fileMapAt : Res SaveCheckpointOutput → String → Option (Option FileEntry)
  | Res.ok _ s, p => some (List.lookup p s.manifest.file_map)
  | Res.err _ _, _ => none

/-- C3: on a fresh manifest whose refs bind head to the empty string, a
successful checkpoint stores parent_id = some "" in the new root version,
not None: execute captures the head ref by a plain lookup and create_version
stores it verbatim, with no empty-string-to-None mapping. (The wasm and
pyo3 bindings of the same repository both apply a filter dropping the empty
string at the corresponding place.) -/
theorem checkpoint_fresh_root_parent_is_some_empty :
    List.lookup "head" manifestFresh.refs = some "" ∧
    Res.historyParents ckptFreshRes = some [some ""] := by
  exact ⟨rfl, rfl⟩

/-- C5: the first checkpoint on the fresh state classifies the new path
a.txt as Added with its content hash, and the run succeeds, but afterwards
file_map still has no entry for a.txt: process_full_files only updates
pre-existing entries through get_mut and never inserts one, so an Added path
without a prior FileEntry is silently skipped. -/
theorem checkpoint_added_new_path_missing_from_file_map :
    identify_changes portsDemo manifestFresh storeFresh =
      Except.ok [FileChange.added "a.txt" "h-hi"] ∧
    Res.fileMapAt ckptFreshRes "a.txt" = some none := by
  exact ⟨rfl, rfl⟩

/-- C6: when change detection returns the empty change list, execute returns
the recoverable patch-failed error with the no-changes message and the state
(manifest and storage) it returns alongside the error is exactly the entry
state: refs, version_history, file_map and metadata are untouched. -/
theorem checkpoint_no_changes_is_error_and_state_unchanged (P : Ports)
    (key : Option String) (message author version_id now : String) (s : St)
    (h : identify_changes P s.manifest s.storage = Except.ok []) :
    SaveCheckpoint.execute P key message author version_id now s =
      Res.err (PortError.patchFailed "No changes to commit") s := by
  unfold SaveCheckpoint.execute
  simp [M.bind, M.getSt, h, M.liftE, M.pure, M.throw]

/-- State with no tracked files and an empty working copy. -/
def stNoChanges : St := { manifest := manifestFresh, storage := [] }

/-- Witness for C6: on an empty store the change list is empty, and the
checkpoint returns the no-changes error with the state unchanged. -/
theorem checkpoint_no_changes_is_error_witness :
    SaveCheckpoint.execute portsDemo none "m" "a" "v1" "T1" stNoChanges =
      Res.err (PortError.patchFailed "No changes to commit") stNoChanges :=
  checkpoint_no_changes_is_error_and_state_unchanged portsDemo none "m" "a" "v1" "T1"
    stNoChanges (by rfl)

/-! ## Auxiliary string and association list lemmas -/

theorem strExt {a b : String} (h : a.data = b.data) : a = b := by
  cases a
  cases b
  exact congrArg String.mk h

theorem dataAppend (a b : String) : (a ++ b).data = a.data ++ b.data :=
  String.data_append a b

theorem lengthEqData (a : String) : a.length = a.data.length := rfl

theorem startsWithS_append (p t : String) : startsWithS (p ++ t) p = true := by
  simp [startsWithS, dataAppend, List.isPrefixOf_iff_prefix]

theorem dropS_append (p t : String) : dropS (p ++ t) p.length = t := by
  have h1 : ((p ++ t).data).drop p.length = t.data := by
    rw [dataAppend, lengthEqData]
    exact List.drop_left _ _
  unfold dropS
  rw [h1]

theorem startsWithS_recompose (k p : String) (h : startsWithS k p = true) :
    p ++ dropS k p.length = k := by
  rw [startsWithS, List.isPrefixOf_iff_prefix] at h
  obtain ⟨t, ht⟩ := h
  have hk : k = p ++ String.mk t := by
    apply strExt
    rw [dataAppend]
    exact ht.symm
  rw [hk, dropS_append]

theorem append_left_cancelS {p a b : String} (h : p ++ a = p ++ b) : a = b := by
  apply strExt
  have h2 := congrArg String.data h
  rw [dataAppend, dataAppend] at h2
  exact List.append_cancel_left h2

theorem lookup_isSome_iff_mem_keys {β : Type} (l : List (String × β)) (p : String) :
    (List.lookup p l).isSome = true ↔ p ∈ l.map Prod.fst := by
  induction l with
  | nil => simp [List.lookup]
  | cons hd tl ih =>
    obtain ⟨k, v⟩ := hd
    by_cases h : p = k
    · subst h
      simp [List.lookup]
    · have hb : (p == k) = false := beq_eq_false_iff_ne.mpr h
      simp [List.lookup, hb, h, ih]

theorem lookup_deleteS_self (st : Store) (p : String) :
    List.lookup p (st.deleteS p) = none := by
  induction st with
  | nil => rfl
  | cons hd tl ih =>
    obtain ⟨k, v⟩ := hd
    by_cases h : k = p
    · subst h
      simpa [Store.deleteS, List.filter] using ih
    · have hb : (k != p) = true := bne_iff_ne.mpr h
      have hb2 : (p == k) = false := beq_eq_false_iff_ne.mpr (Ne.symm h)
      simpa [Store.deleteS, List.filter, hb, List.lookup, hb2] using ih

theorem lookup_deleteS_ne (st : Store) (p q : String) (h : q ≠ p) :
    List.lookup q (st.deleteS p) = List.lookup q st := by
  induction st with
  | nil => rfl
  | cons hd tl ih =>
    obtain ⟨k, v⟩ := hd
    by_cases hk : k = p
    · subst hk
      have hb2 : (q == k) = false := beq_eq_false_iff_ne.mpr h
      simpa [Store.deleteS, List.filter, List.lookup, hb2] using ih
    · have hb : (k != p) = true := bne_iff_ne.mpr hk
      by_cases hq : q = k
      · subst hq
        simp [Store.deleteS, List.filter, hb, List.lookup]
      · have hb2 : (q == k) = false := beq_eq_false_iff_ne.mpr hq
        simpa [Store.deleteS, List.filter, hb, List.lookup, hb2] using ih

/-- Membership in the storage listing of a directory that already ends with
a slash: exactly the direct children, recomposed from the stored keys. -/
theorem mem_listS_iff (st : Store) (dir name : String)
    (hdir : endsWithChar dir '/' = true) :
    name ∈ st.listS dir ↔
      ((dir ++ name) ∈ st.map Prod.fst ∧ containsChar name '/' = false) := by
  simp only [Store.listS, hdir, if_true]
  constructor
  · intro h
    rw [List.mem_filter] at h
    obtain ⟨h1, h2⟩ := h
    rw [List.mem_filterMap] at h1
    obtain ⟨k, hk, hcond⟩ := h1
    by_cases hs : startsWithS k dir = true
    · rw [if_pos hs] at hcond
      have hname : dropS k dir.length = name := Option.some.inj hcond
      have hrec := startsWithS_recompose k dir hs
      rw [hname] at hrec
      rw [hrec]
      exact ⟨hk, by simpa using h2⟩
    · rw [if_neg hs] at hcond
      cases hcond
  · intro h
    obtain ⟨hmem, hns⟩ := h
    rw [List.mem_filter]
    constructor
    · rw [List.mem_filterMap]
      refine ⟨dir ++ name, hmem, ?_⟩
      rw [if_pos (startsWithS_append dir name), dropS_append]
    · simpa using hns

/-! ## Garbage collection use case (application/garbage_collect.rs) -/

/-- Result record of a gc run. -/
structure GcResult where
  blobs_checked : Nat
  blobs_deleted : Nat
  bytes_freed : Nat
deriving DecidableEq, Repr

/-- Repeatedly strip a leading occurrence of the pattern, fuelled by the
string length (each strip removes at least one byte for a non-empty
pattern). Model of Rust str trim_start_matches, which removes every
successive occurrence. -/
def trimStartMatchesGo (pat : String) : Nat → String → String
  | 0, s => s
  | n + 1, s =>
    if pat = "" then s
    else if startsWithS s pat then trimStartMatchesGo pat n (dropS s pat.length)
    else s

/-- Rust str trim_start_matches. -/
def trimStartMatchesS (s pat : String) : String :=
  trimStartMatchesGo pat s.data.length s

/-- collect_referenced_hashes (garbage_collect.rs lines 70-91): union over
every version of every FileState hash (when set) plus the hash extracted
from a content_ref carrying the blobs/ lead. The Rust HashSet is modelled as
a list used only through membership. -/
def collect_referenced_hashes (m : Manifest) : List String :=
  m.version_history.foldl (fun acc v =>
    v.file_states.foldl (fun acc2 ps =>
      let acc3 := match ps.2.hash with
        | some h => h :: acc2
        | none => acc2
      match ps.2.content_ref with
      | some cr =>
        if startsWithS cr "blobs/" then trimStartMatchesS cr "blobs/" :: acc3
        else acc3
      | none => acc3) acc) []

/-- Sweep loop of GcUseCase run (lines 47-60): delete every listed blob not
in the referenced set, recording its size first; deletion in the memory
storage always succeeds, so every swept blob is counted. -/
def gcLoop (referenced : List String) : List String → Store → Store × Nat × Nat
  | [], st => (st, 0, 0)
  | b :: rest, st =>
    if referenced.contains b then gcLoop referenced rest st
    else
      let blob_path := ".store/blobs/" ++ b
      let freed := match st.sizeS blob_path with
        | Except.ok n => n
        | Except.error _ => 0
      let r := gcLoop referenced rest (st.deleteS blob_path)
      (r.1, r.2.1 + 1, r.2.2 + freed)

/-- GcUseCase run (lines 36-67). -/
def GcUseCase.run (m : Manifest) (st : Store) : Store × GcResult :=
  let referenced := collect_referenced_hashes m
  let all_blobs := st.listS ".store/blobs/"
  let r := gcLoop referenced all_blobs st
  (r.1, { blobs_checked := all_blobs.length, blobs_deleted := r.2.1,
          bytes_freed := r.2.2 })

theorem gcLoop_lookup_kept (ref : List String) (blobs : List String) (st : Store)
    (p : String)
    (h : ∀ b ∈ blobs, ref.contains b = false → p ≠ ".store/blobs/" ++ b) :
    List.lookup p (gcLoop ref blobs st).1 = List.lookup p st := by
  induction blobs generalizing st with
  | nil => rfl
  | cons b rest ih =>
    cases hc : ref.contains b with
    | true =>
      simp only [gcLoop, hc, if_true]
      exact ih st (fun b2 hb2 => h b2 (List.mem_cons_of_mem b hb2))
    | false =>
      simp only [gcLoop, hc, Bool.false_eq_true, if_false]
      have hne : p ≠ ".store/blobs/" ++ b := h b (List.mem_cons_self b rest) hc
      rw [ih (st.deleteS (".store/blobs/" ++ b))
        (fun b2 hb2 => h b2 (List.mem_cons_of_mem b hb2))]
      exact lookup_deleteS_ne _ _ _ hne

theorem gcLoop_lookup_deleted (ref : List String) (blobs : List String) (st : Store)
    (b : String) (hb : b ∈ blobs) (hc : ref.contains b = false) :
    List.lookup (".store/blobs/" ++ b) (gcLoop ref blobs st).1 = none := by
  induction blobs generalizing st with
  | nil => cases hb
  | cons b0 rest ih =>
    rcases List.mem_cons.mp hb with h1 | h2
    · subst h1
      simp only [gcLoop, hc, Bool.false_eq_true, if_false]
      by_cases hbr : b ∈ rest
      · exact ih _ hbr
      · rw [gcLoop_lookup_kept]
        · exact lookup_deleteS_self _ _
        · intro b2 hb2 _ hEq
          exact hbr (append_left_cancelS hEq ▸ hb2)
    · cases hc0 : ref.contains b0 with
      | true =>
        simp only [gcLoop, hc0, if_true]
        exact ih st h2
      | false =>
        simp only [gcLoop, hc0, Bool.false_eq_true, if_false]
        exact ih _ h2

theorem gcLoop_all_referenced (ref : List String) (blobs : List String) (st : Store)
    (h : ∀ b ∈ blobs, ref.contains b = true) :
    gcLoop ref blobs st = (st, 0, 0) := by
  induction blobs with
  | nil => rfl
  | cons b rest ih =>
    have hb := h b (List.mem_cons_self b rest)
    simp only [gcLoop, hb, if_true]
    exact ih (fun b2 hb2 => h b2 (List.mem_cons_of_mem b hb2))

/-- C7: after gc completes, a blob name remains in the .store/blobs/
listing if and only if it was listed before and belongs to the reachable
set collected from version_history (FileState hashes plus hashes extracted
from content_ref values with the blobs/ lead); consequently a second gc run
on the same manifest deletes zero blobs and leaves storage unchanged. -/
theorem gc_keeps_exactly_reachable_and_second_run_deletes_nothing
    (m : Manifest) (st : Store) :
    (∀ name : String,
        name ∈ (GcUseCase.run m st).1.listS ".store/blobs/" ↔
          (name ∈ st.listS ".store/blobs/" ∧
            name ∈ collect_referenced_hashes m)) ∧
    (GcUseCase.run m (GcUseCase.run m st).1).2.blobs_deleted = 0 ∧
    (GcUseCase.run m (GcUseCase.run m st).1).1 = (GcUseCase.run m st).1 := by
  have hdir : endsWithChar ".store/blobs/" '/' = true := by decide
  have hrun1 : (GcUseCase.run m st).1 =
      (gcLoop (collect_referenced_hashes m) (st.listS ".store/blobs/") st).1 := rfl
  have hpart : ∀ name : String,
      name ∈ (GcUseCase.run m st).1.listS ".store/blobs/" ↔
        (name ∈ st.listS ".store/blobs/" ∧ name ∈ collect_referenced_hashes m) := by
    intro name
    rw [mem_listS_iff _ _ _ hdir, mem_listS_iff _ _ _ hdir,
      ← lookup_isSome_iff_mem_keys, ← lookup_isSome_iff_mem_keys, hrun1]
    by_cases hdel : name ∈ st.listS ".store/blobs/" ∧
        (collect_referenced_hashes m).contains name = false
    · have hnone := gcLoop_lookup_deleted (collect_referenced_hashes m)
        (st.listS ".store/blobs/") st name hdel.1 hdel.2
      rw [hnone]
      constructor
      · intro hc
        cases hc.1
      · intro hc
        have hcontains : (collect_referenced_hashes m).contains name = true :=
          List.elem_iff.mpr hc.2
        rw [hdel.2] at hcontains
        cases hcontains
    · have hkept : List.lookup (".store/blobs/" ++ name)
          (gcLoop (collect_referenced_hashes m) (st.listS ".store/blobs/") st).1 =
          List.lookup (".store/blobs/" ++ name) st := by
        apply gcLoop_lookup_kept
        intro b hb hcb hEq
        have hbn : name = b := append_left_cancelS hEq
        subst hbn
        exact hdel ⟨hb, hcb⟩
      rw [hkept]
      constructor
      · intro hc
        refine ⟨⟨hc.1, hc.2⟩, ?_⟩
        have hmemb : name ∈ st.listS ".store/blobs/" := by
          rw [mem_listS_iff _ _ _ hdir, ← lookup_isSome_iff_mem_keys]
          exact ⟨hc.1, hc.2⟩
        by_cases hcn : (collect_referenced_hashes m).contains name = true
        · exact List.elem_iff.mp hcn
        · exact absurd ⟨hmemb, Bool.eq_false_iff.mpr hcn⟩ hdel
      · intro hc
        exact hc.1
  refine ⟨hpart, ?_, ?_⟩
  · have hall2 : ∀ b ∈ (GcUseCase.run m st).1.listS ".store/blobs/",
        (collect_referenced_hashes m).contains b = true := by
      intro b hbmem
      exact List.elem_iff.mpr ((hpart b).mp hbmem).2
    have h2 := gcLoop_all_referenced (collect_referenced_hashes m)
      ((GcUseCase.run m st).1.listS ".store/blobs/") (GcUseCase.run m st).1 hall2
    show (gcLoop (collect_referenced_hashes m)
      ((GcUseCase.run m st).1.listS ".store/blobs/") (GcUseCase.run m st).1).2.1 = 0
    rw [h2]
  · have hall2 : ∀ b ∈ (GcUseCase.run m st).1.listS ".store/blobs/",
        (collect_referenced_hashes m).contains b = true := by
      intro b hbmem
      exact List.elem_iff.mpr ((hpart b).mp hbmem).2
    have h2 := gcLoop_all_referenced (collect_referenced_hashes m)
      ((GcUseCase.run m st).1.listS ".store/blobs/") (GcUseCase.run m st).1 hall2
    show (gcLoop (collect_referenced_hashes m)
      ((GcUseCase.run m st).1.listS ".store/blobs/") (GcUseCase.run m st).1).1 =
      (GcUseCase.run m st).1
    rw [h2]

/-! ## Restore engine (application/restore_version.rs) -/

/-- Final state of a stateful outcome, for ok and err alike (a Rust mutable
borrow leaves its mutations visible in both cases). -/
def Res.state {α : Type} : Res α → St
  | Res.ok _ s => s
  | Res.err _ s => s

/-- Output record of the restore use case. -/
structure RestoreVersionOutput where
  restored_version_id : String
  files_restored : Nat
  patches_applied : Nat
deriving DecidableEq, Repr

/-- Path reconstruction of find_version_path (lines 197-203): walk the
recorded parent-of links from the found node, then reverse. Fuelled by the
link map size, which bounds every walk the Rust loop completes. -/
def reconstructPath (pm : List (String × String)) :
    Nat → String → List String → List String
  | 0, _, acc => acc.reverse
  | fuel + 1, curr, acc =>
    match List.lookup curr pm with
    | some par => reconstructPath pm fuel par (par :: acc)
    | none => acc.reverse

/-- BFS loop of find_version_path (lines 186-217), fuelled: on each
iteration one queue element is popped; a parent id is enqueued only when it
is not in the visited set, which also receives it. none marks fuel
exhaustion; the wrapper supplies fuel proven sufficient below. -/
def findVersionPathGo (m : Manifest) (to_id : String) :
    Nat → List String → List String → List (String × String) → Option (List String)
  | 0, _, _, _ => none
  | fuel + 1, queue, visited, pm =>
    match queue with
    | [] => some []
    | current :: qrest =>
      if current = to_id then
        some (reconstructPath pm pm.length current [current])
      else
        match m.version_history.find? (fun v => v.id == current) with
        | some v =>
          match v.parent_id with
          | some pid =>
            if visited.contains pid then
              findVersionPathGo m to_id fuel qrest visited pm
            else
              findVersionPathGo m to_id fuel (qrest ++ [pid]) (pid :: visited)
                ((pid, current) :: pm)
          | none => findVersionPathGo m to_id fuel qrest visited pm
        | none => findVersionPathGo m to_id fuel qrest visited pm

/-- Ids the BFS can ever visit: the start id plus every parent id named in
the history. -/
def bfsIdPool (m : Manifest) (from_id : String) : List String :=
  from_id :: m.version_history.filterMap Version.parent_id

/-- find_version_path (lines 174-221). The Rust function always returns Ok;
the fuel chosen here is proven sufficient, so the option is always some. -/
def find_version_path (m : Manifest) (from_id to_id : String) :
    Option (List String) :=
  findVersionPathGo m to_id (2 * (bfsIdPool m from_id).length + 1)
    [from_id] [from_id] []

/-- find_version_path as used by execute, defaulting on the never-occurring
fuel exhaustion. -/
def find_version_pathD (m : Manifest) (from_id to_id : String) : List String :=
  (find_version_path m from_id to_id).getD []

/-- Single backward step through the version DAG: some version in the
history has id a and names b as its parent. -/
def StepRel (m : Manifest) (a b : String) : Prop :=
  ∃ v ∈ m.version_history, v.id = a ∧ v.parent_id = some b

/-- b is reachable from a through parent links. -/
def ReachableFrom (m : Manifest) (a b : String) : Prop :=
  Relation.ReflTransGen (StepRel m) a b

/-- Patch chain collection loop of restore_text_file (lines 233-266): walk
from the target through parent links, pushing the content_ref and the
encrypted flag of every state that has a content_ref, stopping at a deleted
state, a version that lacks the file, or a missing version. The Rust loop
carries no visited set; the fuel used by restore_text_file below covers
every walk the Rust loop itself completes. -/
def collectChainGo (m : Manifest) (file_path : String) :
    Nat → Option String → List (String × Bool) → List (String × Bool)
  | 0, _, acc => acc
  | _ + 1, none, acc => acc
  | fuel + 1, some id0, acc =>
    match m.version_history.find? (fun v => v.id == id0) with
    | none => acc
    | some v =>
      match List.lookup file_path v.file_states with
      | none => acc
      | some fs =>
        if fs.deleted.getD false then acc
        else
          let acc2 := match fs.content_ref with
            | some r => acc ++ [(r, fs.encrypted.getD false)]
            | none => acc
          collectChainGo m file_path fuel v.parent_id acc2

/-- Patch application loop of restore_text_file (lines 269-284): fold over
the collected chain in reverse starting from the empty string, skipping refs
missing from storage, decrypting when flagged, and applying the diff port. -/
def applyChainLoop (P : Ports) (key : Option String) :
    List (String × Bool) → String → M String
  | [], content => M.pure content
  | (pref, enc) :: rest, content =>
    M.bind (M.existsF pref) (fun ex =>
    if ex then
      M.bind (M.readF pref) (fun pdata =>
      M.bind
        (if enc then
          match key with
          | none => M.throw (PortError.encryptionError "Key required for encrypted patch")
          | some k => M.liftE (P.decryptF k pdata)
        else M.pure pdata) (fun pstr =>
      M.bind (M.liftE (P.applyF content pstr)) (fun c2 =>
      applyChainLoop P key rest c2)))
    else applyChainLoop P key rest content)

/-- restore_text_file (lines 224-287): collect the chain from the target
toward its ancestors, then apply the collected reverse patches in reverse
collection order starting from the empty string. -/
def restore_text_file (P : Ports) (key : Option String) (m : Manifest)
    (file_path target_version_id : String) : M String :=
  let patches := collectChainGo m file_path (m.version_history.length + 1)
    (some target_version_id) []
  applyChainLoop P key patches.reverse ""

/-- Decrypt-if-flagged step shared by the restore branches (lines 116-120
and 135-139). -/
def decryptIf (P : Ports) (key : Option String) (tstate : FileState)
    (blob : String) : M String :=
  if tstate.encrypted.getD false then
    match key with
    | none => M.throw (PortError.encryptionError "Key required for encrypted content")
    | some k => M.liftE (P.decryptF k blob)
  else M.pure blob

/-- Deleted-state branch of the restore loop (lines 98-105). -/
def restoreDeletedBranch (path : String) : M (Nat × Nat) :=
  M.bind (M.existsF ("content/" ++ path)) (fun ex =>
  if ex then
    M.bind (M.deleteF ("content/" ++ path)) (fun _ => M.pure (1, 0))
  else M.pure (0, 0))

/-- Body for one target file state in the restore loop (lines 97-145); the
returned pair counts files_restored and patches_applied contributions,
including the unconditional increment at line 144 for non-deleted states. -/
def restoreOne (P : Ports) (key : Option String) (m : Manifest)
    (target_id path : String) (tstate : FileState) : M (Nat × Nat) :=
  if tstate.deleted.getD false then
    restoreDeletedBranch path
  else
    M.bind
      (if ((List.lookup path m.file_map).map (fun e => e.file_type.isTextB)).getD false then
        match tstate.hash with
        | some hsh =>
          M.bind (M.readF (".store/blobs/" ++ hsh)) (fun blob =>
          M.bind (decryptIf P key tstate blob) (fun blob2 =>
          M.bind (M.writeF ("content/" ++ path) blob2) (fun _ => M.pure (1, 0))))
        | none =>
          M.bind (restore_text_file P key m path target_id) (fun content =>
          M.bind (M.writeF ("content/" ++ path) content) (fun _ => M.pure (0, 1)))
      else
        match tstate.hash with
        | some hsh =>
          M.bind (M.readF (".store/blobs/" ++ hsh)) (fun blob =>
          M.bind (decryptIf P key tstate blob) (fun blob2 =>
          M.bind (M.writeF ("content/" ++ path) blob2) (fun _ => M.pure (0, 0))))
        | none => M.pure (0, 0))
      (fun r => M.pure (r.1 + 1, r.2))

/-- Restore loop over the target file states (lines 97-145). -/
def restoreFilesLoop (P : Ports) (key : Option String) (m : Manifest)
    (target_id : String) : List (String × FileState) → M (Nat × Nat)
  | [] => M.pure (0, 0)
  | (path, tstate) :: rest =>
    M.bind (restoreOne P key m target_id path tstate) (fun r1 =>
    M.bind (restoreFilesLoop P key m target_id rest) (fun r2 =>
    M.pure (r1.1 + r2.1, r1.2 + r2.2)))

/-- Deletion loop for paths in HEAD but not in the target (lines 148-155). -/
def deleteExtraLoop (targetStates : List (String × FileState)) :
    List (String × FileState) → M Nat
  | [] => M.pure 0
  | (path, _) :: rest =>
    if (List.lookup path targetStates).isSome then deleteExtraLoop targetStates rest
    else
      M.bind (M.existsF ("content/" ++ path)) (fun ex =>
      if ex then
        M.bind (M.deleteF ("content/" ++ path)) (fun _ =>
        M.bind (deleteExtraLoop targetStates rest) (fun n => M.pure (n + 1)))
      else deleteExtraLoop targetStates rest)

/-- file_map refresh from the target states (lines 159-164): update hash and
encrypted of every existing entry named by the target states. -/
def applyStatesToFileMap : List (String × FileState) → M Unit
  | [] => M.pure ()
  | (path, state) :: rest =>
    M.bind (M.modifyManifest (fun m =>
      { m with file_map := aUpdate m.file_map path (fun e =>
          { e with current_hash := state.hash, encrypted := state.encrypted }) }))
      (fun _ => applyStatesToFileMap rest)

/-- RestoreVersionUseCase execute (lines 49-171). The force flag is accepted
and ignored exactly as the dirty check placeholder does. -/
def RestoreVersion.execute (P : Ports) (key : Option String)
    (target_id : String) (_force : Bool) : M RestoreVersionOutput :=
  M.bind M.getSt (fun s0 =>
  match List.lookup "head" s0.manifest.refs with
  | none => M.throw (PortError.notFound "HEAD not found")
  | some head_id =>
    let path := find_version_pathD s0.manifest head_id target_id
    if path.isEmpty then
      M.throw (PortError.notFound ("No path from " ++ head_id ++ " to " ++ target_id))
    else
      match s0.manifest.version_history.find? (fun v => v.id == target_id) with
      | none => M.throw (PortError.notFound ("Version " ++ target_id ++ " not found"))
      | some target_version =>
        let head_version := s0.manifest.version_history.find? (fun v => v.id == head_id)
        let head_files := (head_version.map Version.file_states).getD []
        M.bind (restoreFilesLoop P key s0.manifest target_id target_version.file_states)
          (fun r1 =>
        M.bind (deleteExtraLoop target_version.file_states head_files) (fun r2 =>
        M.bind (M.modifyManifest (fun m =>
          { m with refs := aInsert m.refs "head" target_id })) (fun _ =>
        M.bind (applyStatesToFileMap target_version.file_states) (fun _ =>
        M.pure { restored_version_id := target_id,
                 files_restored := r1.1 + r2, patches_applied := r1.2 })))))

/-! ## Legacy patch-chain scenario (claim C2)

A two-version history for one text file: content "A" at v1, modified to "B"
at v2. The checkpoint engine stores at v2 a reverse patch computed as
compute_diff(new, old) = diff from "B" to "A", so applying it to the target
content "B" yields the parent content "A". The file states carry no blob
hash, which is exactly the legacy situation in which restore falls back to
restore_text_file. -/

/-- Ideal diff capability on separator-free texts: the patch records the two
texts and apply returns the recorded result, so apply(o, diff(o, n)) = n
holds, as the spec demands of the Diff capability. -/
def diffPair (old new : String) : String := old ++ "|" ++ new

/-- Apply for diffPair patches. -/
def applyPair (_text patch : String) : Except PortError String :=
  match splitOnChar patch '|' with
  | [_, n] => Except.ok n
  | _ => Except.error (PortError.patchFailed "bad patch")

/-- Ports with the ideal pair codec. -/
def portsPair : Ports :=
  { hashF := fun s => "h-" ++ s, diffF := diffPair, applyF := applyPair,
    encryptF := fun _ d => d, decryptF := fun _ d => Except.ok d }

/-- Ports with the shipped SimpleDiff apply. -/
def portsSimple : Ports :=
  { hashF := fun s => "h-" ++ s, diffF := fun _ _ => "",
    applyF := SimpleDiff.apply_patch,
    encryptF := fun _ d => d, decryptF := fun _ d => Except.ok d }

/-- v1 state of f.txt: legacy, no hash, no content_ref (the file was added
here). -/
def fsLegacyV1 : FileState :=
  { inode_id := "i1", hash := none, content_ref := none, deleted := none,
    encrypted := none }

/-- v2 state of f.txt: legacy, no hash, reverse patch reference. -/
def fsLegacyV2 : FileState :=
  { inode_id := "i1", hash := none,
    content_ref := some ".store/deltas/v2_p.patch", deleted := none,
    encrypted := none }

/-- Root version, content "A". -/
def verLegacy1 : Version :=
  { id := "v1", parent_id := none, timestamp := "T1", message := "m1",
    author := "al", file_states := [("f.txt", fsLegacyV1)] }

/-- Child version, content "B", carrying the reverse patch toward "A". -/
def verLegacy2 : Version :=
  { id := "v2", parent_id := some "v1", timestamp := "T2", message := "m2",
    author := "al", file_states := [("f.txt", fsLegacyV2)] }

/-- Manifest of the legacy scenario. -/
def manifestLegacy : Manifest :=
  { format_version := "1.0.0", metadata := metaDemo,
    file_map := [("f.txt",
      { inode_id := "i1", file_type := FileType.text, current_hash := none,
        created := "T0", modified := "T0", encrypted := none })],
    version_history := [verLegacy1, verLegacy2],
    refs := [("head", "v2")], rename_log := [] }

/-- Storage holding the reverse patch exactly as the checkpoint engine
writes it: compute_diff(new, old) with new = "B" (content at v2) and
old = "A" (content at v1). -/
def storeLegacy : Store := [(".store/deltas/v2_p.patch", diffPair "B" "A")]

/-- State for the legacy restore. -/
def stLegacy : St := { manifest := manifestLegacy, storage := storeLegacy }

/-- C2: the patch chain walk for target v2 collects the reverse patch of v2
and stops at v1 (no content_ref) and the missing parent; the stored patch
maps the target content "B" to the parent content "A" (first conjunct,
witnessing the reverse-patch direction and that the diff port meets its
contract); yet restore_text_file, which starts from the empty string and
applies the collected patches oldest-first, returns "A" -- the parent
content -- instead of the target content "B". With the shipped SimpleDiff
apply it returns the empty string. In both cases the reconstruction does
not produce the content of the target version. -/
theorem restore_text_file_yields_parent_not_target :
    applyPair "B" (diffPair "B" "A") = Except.ok "A" ∧
    restore_text_file portsPair none manifestLegacy "f.txt" "v2" stLegacy =
      Res.ok "A" stLegacy ∧
    restore_text_file portsSimple none manifestLegacy "f.txt" "v2" stLegacy =
      Res.ok "" stLegacy ∧
    ("A" : String) ≠ "B" := by
  refine ⟨rfl, rfl, rfl, by decide⟩

/-! ## Termination and soundness of the fuelled BFS (claim C10) -/

theorem nodup_subset_length_le (l pool : List String) (hn : l.Nodup)
    (hs : ∀ x ∈ l, x ∈ pool) : l.length ≤ pool.length := by
  have h1 : l.toFinset.card = l.length := List.toFinset_card_of_nodup hn
  have h2 : l.toFinset ⊆ pool.toFinset := by
    intro x hx
    exact List.mem_toFinset.mpr (hs x (List.mem_toFinset.mp hx))
  have h3 := Finset.card_le_card h2
  have h4 := List.toFinset_card_le pool
  omega

/-- Fuel sufficiency of the BFS: with the measure
queue length plus twice the pool ids not yet visited below the fuel, the
loop returns some result. Every enqueue consumes a fresh pool id, so the
measure drops at every step. -/
theorem findVersionPathGo_isSome (m : Manifest) (to_id : String)
    (pool : List String)
    (hpool : ∀ v ∈ m.version_history, ∀ pid, v.parent_id = some pid → pid ∈ pool) :
    ∀ (fuel : Nat) (queue visited : List String) (pm : List (String × String)),
      visited.Nodup →
      (∀ x ∈ visited, x ∈ pool) →
      queue.length + 2 * pool.length < fuel + 2 * visited.length →
      (findVersionPathGo m to_id fuel queue visited pm).isSome = true := by
  intro fuel
  induction fuel with
  | zero =>
    intro queue visited pm hvn hvp hfuel
    have := nodup_subset_length_le visited pool hvn hvp
    omega
  | succ fuel ih =>
    intro queue visited pm hvn hvp hfuel
    match queue with
    | [] => simp [findVersionPathGo]
    | current :: qrest =>
      by_cases hcur : current = to_id
      · simp [findVersionPathGo, hcur]
      · simp only [findVersionPathGo]
        rw [if_neg hcur]
        simp only [List.length_cons] at hfuel
        cases hfind : m.version_history.find? (fun v => v.id == current) with
        | none =>
          exact ih qrest visited pm hvn hvp (by omega)
        | some v =>
          show ((match v.parent_id with
            | some pid =>
              if visited.contains pid = true then
                findVersionPathGo m to_id fuel qrest visited pm
              else
                findVersionPathGo m to_id fuel (qrest ++ [pid]) (pid :: visited)
                  ((pid, current) :: pm)
            | none => findVersionPathGo m to_id fuel qrest visited pm).isSome = true)
          cases hpid : v.parent_id with
          | none =>
            exact ih qrest visited pm hvn hvp (by omega)
          | some pid =>
            show ((if visited.contains pid = true then
                findVersionPathGo m to_id fuel qrest visited pm
              else
                findVersionPathGo m to_id fuel (qrest ++ [pid]) (pid :: visited)
                  ((pid, current) :: pm)).isSome = true)
            by_cases hvis : visited.contains pid = true
            · rw [if_pos hvis]
              exact ih qrest visited pm hvn hvp (by omega)
            · rw [if_neg hvis]
              have hfresh : pid ∉ visited := fun hmem => hvis (List.elem_iff.mpr hmem)
              have hpid_pool : pid ∈ pool :=
                hpool v (List.mem_of_find?_eq_some hfind) pid hpid
              apply ih (qrest ++ [pid]) (pid :: visited) ((pid, current) :: pm)
              · exact List.nodup_cons.mpr ⟨hfresh, hvn⟩
              · intro x hx
                rcases List.mem_cons.mp hx with h1 | h1
                · exact h1 ▸ hpid_pool
                · exact hvp x h1
              · have hq2 : (qrest ++ [pid]).length = qrest.length + 1 := by simp
                simp only [List.length_cons]
                omega

/-- BFS soundness: every id in the queue is reachable from the start, so a
non-empty result implies the target is reachable from the start through
parent links. -/
theorem findVersionPathGo_reaches (m : Manifest) (from_id to_id : String) :
    ∀ (fuel : Nat) (queue visited : List String) (pm : List (String × String)),
      (∀ q ∈ queue, ReachableFrom m from_id q) →
      ∀ p, findVersionPathGo m to_id fuel queue visited pm = some p →
        p ≠ [] → ReachableFrom m from_id to_id := by
  intro fuel
  induction fuel with
  | zero =>
    intro queue visited pm hq p hres hne
    simp [findVersionPathGo] at hres
  | succ fuel ih =>
    intro queue visited pm hq p hres hne
    match queue with
    | [] =>
      simp [findVersionPathGo] at hres
      exact absurd hres hne
    | current :: qrest =>
      by_cases hcur : current = to_id
      · subst hcur
        exact hq current (List.mem_cons_self current qrest)
      · simp only [findVersionPathGo] at hres
        rw [if_neg hcur] at hres
        cases hfind : m.version_history.find? (fun v => v.id == current) with
        | none =>
          rw [hfind] at hres
          exact ih qrest visited pm
            (fun q hq2 => hq q (List.mem_cons_of_mem current hq2)) p hres hne
        | some v =>
          rw [hfind] at hres
          replace hres : (match v.parent_id with
            | some pid =>
              if visited.contains pid = true then
                findVersionPathGo m to_id fuel qrest visited pm
              else
                findVersionPathGo m to_id fuel (qrest ++ [pid]) (pid :: visited)
                  ((pid, current) :: pm)
            | none => findVersionPathGo m to_id fuel qrest visited pm) = some p := hres
          cases hpid : v.parent_id with
          | none =>
            rw [hpid] at hres
            exact ih qrest visited pm
              (fun q hq2 => hq q (List.mem_cons_of_mem current hq2)) p hres hne
          | some pid =>
            rw [hpid] at hres
            replace hres : (if visited.contains pid = true then
                findVersionPathGo m to_id fuel qrest visited pm
              else
                findVersionPathGo m to_id fuel (qrest ++ [pid]) (pid :: visited)
                  ((pid, current) :: pm)) = some p := hres
            by_cases hvis : visited.contains pid = true
            · rw [if_pos hvis] at hres
              exact ih qrest visited pm
                (fun q hq2 => hq q (List.mem_cons_of_mem current hq2)) p hres hne
            · rw [if_neg hvis] at hres
              refine ih (qrest ++ [pid]) (pid :: visited) ((pid, current) :: pm)
                ?_ p hres hne
              intro q hq2
              rcases List.mem_append.mp hq2 with h1 | h1
              · exact hq q (List.mem_cons_of_mem current h1)
              · have hqpid : q = pid := by simpa using h1
                subst hqpid
                have hstep : StepRel m current q := by
                  refine ⟨v, List.mem_of_find?_eq_some hfind, ?_, hpid⟩
                  have hbv := List.find?_some hfind
                  simpa using hbv
                exact Relation.ReflTransGen.tail
                  (hq current (List.mem_cons_self current qrest)) hstep

/-- C10: find_version_path terminates on every manifest (the option wrapper
marking fuel exhaustion is always some, including on cyclic or dangling
parent links, because the visited set admits every id at most once), and it
returns the empty path whenever the target is not reachable from the start
through parent links. -/
theorem find_version_path_total_and_empty_when_unreachable
    (m : Manifest) (a b : String) :
    (find_version_path m a b).isSome = true ∧
    (¬ ReachableFrom m a b → find_version_path m a b = some []) := by
  have hsome : (find_version_path m a b).isSome = true := by
    unfold find_version_path
    apply findVersionPathGo_isSome m b (bfsIdPool m a)
    · intro v hv pid hpid
      exact List.mem_cons_of_mem _ (List.mem_filterMap.mpr ⟨v, hv, hpid⟩)
    · exact List.nodup_singleton a
    · intro x hx
      have hxa : x = a := by simpa using hx
      subst hxa
      exact List.mem_cons_self _ _
    · simp only [List.length_cons, List.length_nil]
      omega
  refine ⟨hsome, fun hnr => ?_⟩
  obtain ⟨p, hp⟩ := Option.isSome_iff_exists.mp hsome
  by_cases hpe : p = []
  · rw [hp, hpe]
  · exact absurd
      (findVersionPathGo_reaches m a b _ [a] [a] []
        (fun q hq => by
          have hqa : q = a := by simpa using hq
          subst hqa
          exact Relation.ReflTransGen.refl) p hp hpe) hnr

/-- Version forming a two-cycle with its sibling. -/
def versionCycA : Version :=
  { id := "v1", parent_id := some "v2", timestamp := "T", message := "c1",
    author := "al", file_states := [] }

/-- The other half of the cycle. -/
def versionCycB : Version :=
  { id := "v2", parent_id := some "v1", timestamp := "T", message := "c2",
    author := "al", file_states := [] }

/-- Manifest whose parent links form a cycle v1 -> v2 -> v1. -/
def manifestCyc : Manifest :=
  { format_version := "1.0.0", metadata := metaDemo, file_map := [],
    version_history := [versionCycA, versionCycB],
    refs := [("head", "v1")], rename_log := [] }

theorem reachableCyc_subset (x : String)
    (h : ReachableFrom manifestCyc "v1" x) : x = "v1" ∨ x = "v2" := by
  induction h with
  | refl => exact Or.inl rfl
  | @tail b c hab hbc ih =>
    obtain ⟨v, hv, hid, hpid⟩ := hbc
    have hv2 : v = versionCycA ∨ v = versionCycB := by
      simpa [manifestCyc] using hv
    rcases hv2 with h1 | h1 <;> subst h1
    · have h2 : some "v2" = some c := by simpa [versionCycA] using hpid
      exact Or.inr (Option.some.inj h2).symm
    · have h2 : some "v1" = some c := by simpa [versionCycB] using hpid
      exact Or.inl (Option.some.inj h2).symm

theorem notReachCyc : ¬ ReachableFrom manifestCyc "v1" "zz" := by
  intro h
  rcases reachableCyc_subset "zz" h with h1 | h1
  · exact absurd h1 (by decide)
  · exact absurd h1 (by decide)

/-- Witness for C10 at a concrete cyclic manifest and an unreachable
target: the BFS terminates and returns the empty path. -/
theorem find_version_path_cycle_witness :
    (find_version_path manifestCyc "v1" "zz").isSome = true ∧
    find_version_path manifestCyc "v1" "zz" = some [] :=
  ⟨(find_version_path_total_and_empty_when_unreachable manifestCyc "v1" "zz").1,
   (find_version_path_total_and_empty_when_unreachable manifestCyc "v1" "zz").2
     notReachCyc⟩

/-! ## Frame properties of the stateful computations -/

/-- Computations whose final state equals the input state, on both ok and
error outcomes. -/
def StateId {α : Type} (x : M α) : Prop := ∀ s : St, Res.state (x s) = s

/-- Computations that leave the manifest untouched and change only storage
keys below content/. -/
def ContentOnly {α : Type} (x : M α) : Prop :=
  ∀ s : St,
    (Res.state (x s)).manifest = s.manifest ∧
    ∀ q : String, startsWithS q "content/" = false →
      List.lookup q (Res.state (x s)).storage = List.lookup q s.storage

/-- Computations that leave the manifest untouched. -/
def ManifestConst {α : Type} (x : M α) : Prop :=
  ∀ s : St, (Res.state (x s)).manifest = s.manifest

/-- Outcome carries a patch-failed error. -/
def Res.isPF {α : Type} : Res α → Bool
  | Res.err (PortError.patchFailed _) _ => true
  | _ => false

/-- Computations that never produce a patch-failed error. -/
def NoPF {α : Type} (x : M α) : Prop := ∀ s : St, Res.isPF (x s) = false

theorem StateId.contentOnly {α : Type} {x : M α} (h : StateId x) : ContentOnly x := by
  intro s
  rw [h s]
  exact ⟨rfl, fun q _ => rfl⟩

theorem ContentOnly.manifestConst {α : Type} {x : M α} (h : ContentOnly x) :
    ManifestConst x := fun s => (h s).1

theorem stateId_pure {α : Type} (a : α) : StateId (M.pure a) := fun _ => rfl

theorem stateId_throw {α : Type} (e : PortError) : StateId (M.throw e : M α) :=
  fun _ => rfl

theorem stateId_getSt : StateId M.getSt := fun _ => rfl

theorem stateId_existsF (p : String) : StateId (M.existsF p) := fun _ => rfl

theorem stateId_readF (p : String) : StateId (M.readF p) := by
  intro s
  unfold M.readF
  cases s.storage.readS p <;> rfl

theorem stateId_liftE {α : Type} (x : Except PortError α) : StateId (M.liftE x) := by
  cases x <;> exact fun _ => rfl

theorem stateId_bind {α β : Type} {x : M α} {f : α → M β}
    (hx : StateId x) (hf : ∀ a, StateId (f a)) : StateId (M.bind x f) := by
  intro s
  have hx1 := hx s
  unfold M.bind
  cases hxs : x s with
  | ok a s1 =>
    rw [hxs] at hx1
    have hs1 : s1 = s := hx1
    show Res.state (f a s1) = s
    rw [hs1]
    exact hf a s
  | err e s1 =>
    rw [hxs] at hx1
    exact hx1

theorem contentOnly_bind {α β : Type} {x : M α} {f : α → M β}
    (hx : ContentOnly x) (hf : ∀ a, ContentOnly (f a)) : ContentOnly (M.bind x f) := by
  intro s
  have hx1 := hx s
  unfold M.bind
  cases hxs : x s with
  | ok a s1 =>
    rw [hxs] at hx1
    constructor
    · exact ((hf a s1).1).trans hx1.1
    · intro q hq
      exact (((hf a s1)).2 q hq).trans (hx1.2 q hq)
  | err e s1 =>
    rw [hxs] at hx1
    exact hx1

theorem manifestConst_bind {α β : Type} {x : M α} {f : α → M β}
    (hx : ManifestConst x) (hf : ∀ a, ManifestConst (f a)) :
    ManifestConst (M.bind x f) := by
  intro s
  have hx1 := hx s
  unfold M.bind
  cases hxs : x s with
  | ok a s1 =>
    rw [hxs] at hx1
    exact ((hf a s1)).trans hx1
  | err e s1 =>
    rw [hxs] at hx1
    exact hx1

theorem contentOnly_writeF (p v : String) (hp : startsWithS p "content/" = true) :
    ContentOnly (M.writeF p v) := by
  intro s
  refine ⟨rfl, fun q hq => ?_⟩
  show List.lookup q (s.storage.writeS p v) = List.lookup q s.storage
  apply lookup_aInsert_of_ne
  intro hqp
  rw [hqp, hp] at hq
  cases hq

theorem contentOnly_deleteF (p : String) (hp : startsWithS p "content/" = true) :
    ContentOnly (M.deleteF p) := by
  intro s
  refine ⟨rfl, fun q hq => ?_⟩
  show List.lookup q (s.storage.deleteS p) = List.lookup q s.storage
  apply lookup_deleteS_ne
  intro hqp
  rw [hqp, hp] at hq
  cases hq

theorem manifestConst_writeF (p v : String) : ManifestConst (M.writeF p v) :=
  fun _ => rfl

theorem manifestConst_deleteF (p : String) : ManifestConst (M.deleteF p) :=
  fun _ => rfl

theorem noPF_pure {α : Type} (a : α) : NoPF (M.pure a) := fun _ => rfl

theorem noPF_getSt : NoPF M.getSt := fun _ => rfl

theorem noPF_existsF (p : String) : NoPF (M.existsF p) := fun _ => rfl

theorem noPF_writeF (p v : String) : NoPF (M.writeF p v) := fun _ => rfl

theorem noPF_deleteF (p : String) : NoPF (M.deleteF p) := fun _ => rfl

theorem noPF_modifyManifest (f : Manifest → Manifest) :
    NoPF (M.modifyManifest f) := fun _ => rfl

theorem noPF_readF (p : String) : NoPF (M.readF p) := by
  intro s
  unfold M.readF
  unfold Store.readS
  cases List.lookup p s.storage <;> rfl

theorem noPF_throwEnc {α : Type} (msg : String) :
    NoPF (M.throw (PortError.encryptionError msg) : M α) := fun _ => rfl

theorem noPF_bind {α β : Type} {x : M α} {f : α → M β}
    (hx : NoPF x) (hf : ∀ a, NoPF (f a)) : NoPF (M.bind x f) := by
  intro s
  have hx1 := hx s
  unfold M.bind
  cases hxs : x s with
  | ok a s1 =>
    exact hf a s1
  | err e s1 =>
    rw [hxs] at hx1
    show Res.isPF (Res.err e s1 : Res β) = false
    cases e with
    | patchFailed msg => exact absurd hx1 (by simp [Res.isPF])
    | io msg => rfl
    | notFound msg => rfl
    | compressionError msg => rfl
    | encryptionError msg => rfl

theorem stateId_decryptIf (P : Ports) (key : Option String) (tstate : FileState)
    (blob : String) : StateId (decryptIf P key tstate blob) := by
  unfold decryptIf
  by_cases h : tstate.encrypted.getD false = true
  · rw [if_pos h]
    cases key with
    | none => exact stateId_throw _
    | some k => exact stateId_liftE _
  · rw [if_neg h]
    exact stateId_pure _

theorem stateId_applyChainLoop (P : Ports) (key : Option String) :
    ∀ (l : List (String × Bool)) (c : String), StateId (applyChainLoop P key l c) := by
  intro l
  induction l with
  | nil => intro c; exact stateId_pure _
  | cons hd rest ih =>
    intro c
    obtain ⟨pref, enc⟩ := hd
    apply stateId_bind (stateId_existsF _)
    intro ex
    cases ex
    · rw [if_neg Bool.false_ne_true]
      exact ih c
    · rw [if_pos rfl]
      apply stateId_bind (stateId_readF _)
      intro pdata
      apply stateId_bind
      · cases enc
        · rw [if_neg Bool.false_ne_true]
          exact stateId_pure _
        · rw [if_pos rfl]
          cases key with
          | none => exact stateId_throw _
          | some k => exact stateId_liftE _
      · intro pstr
        apply stateId_bind (stateId_liftE _)
        intro c2
        exact ih c2

theorem stateId_restore_text_file (P : Ports) (key : Option String) (m : Manifest)
    (fp tid : String) : StateId (restore_text_file P key m fp tid) := by
  unfold restore_text_file
  exact stateId_applyChainLoop P key _ _

theorem contentOnly_restoreDeletedBranch (path : String) :
    ContentOnly (restoreDeletedBranch path) := by
  unfold restoreDeletedBranch
  apply contentOnly_bind (stateId_existsF _).contentOnly
  intro ex
  cases ex
  · rw [if_neg Bool.false_ne_true]
    exact (stateId_pure _).contentOnly
  · rw [if_pos rfl]
    exact contentOnly_bind
      (contentOnly_deleteF _ (startsWithS_append "content/" path))
      (fun _ => (stateId_pure _).contentOnly)

theorem contentOnly_restoreOne (P : Ports) (key : Option String) (m : Manifest)
    (target_id path : String) (tstate : FileState) :
    ContentOnly (restoreOne P key m target_id path tstate) := by
  unfold restoreOne
  by_cases hdel : tstate.deleted.getD false = true
  · rw [if_pos hdel]
    exact contentOnly_restoreDeletedBranch path
  · rw [if_neg hdel]
    refine contentOnly_bind ?_ (fun r => (stateId_pure _).contentOnly)
    by_cases htext :
        ((List.lookup path m.file_map).map (fun e => e.file_type.isTextB)).getD false = true
    · rw [if_pos htext]
      cases hh : tstate.hash with
      | some hsh =>
        exact contentOnly_bind (stateId_readF _).contentOnly (fun blob =>
          contentOnly_bind (stateId_decryptIf P key tstate blob).contentOnly (fun blob2 =>
            contentOnly_bind
              (contentOnly_writeF _ _ (startsWithS_append "content/" path))
              (fun _ => (stateId_pure _).contentOnly)))
      | none =>
        exact contentOnly_bind
          (stateId_restore_text_file P key m path target_id).contentOnly (fun content =>
            contentOnly_bind
              (contentOnly_writeF _ _ (startsWithS_append "content/" path))
              (fun _ => (stateId_pure _).contentOnly))
    · rw [if_neg htext]
      cases hh : tstate.hash with
      | some hsh =>
        exact contentOnly_bind (stateId_readF _).contentOnly (fun blob =>
          contentOnly_bind (stateId_decryptIf P key tstate blob).contentOnly (fun blob2 =>
            contentOnly_bind
              (contentOnly_writeF _ _ (startsWithS_append "content/" path))
              (fun _ => (stateId_pure _).contentOnly)))
      | none => exact (stateId_pure _).contentOnly

theorem contentOnly_restoreFilesLoop (P : Ports) (key : Option String) (m : Manifest)
    (tid : String) : ∀ states, ContentOnly (restoreFilesLoop P key m tid states) := by
  intro states
  induction states with
  | nil => exact (stateId_pure _).contentOnly
  | cons hd rest ih =>
    obtain ⟨path, tstate⟩ := hd
    exact contentOnly_bind (contentOnly_restoreOne P key m tid path tstate) (fun r1 =>
      contentOnly_bind ih (fun r2 => (stateId_pure _).contentOnly))

theorem contentOnly_deleteExtraLoop (targetStates : List (String × FileState)) :
    ∀ headStates, ContentOnly (deleteExtraLoop targetStates headStates) := by
  intro headStates
  induction headStates with
  | nil => exact (stateId_pure _).contentOnly
  | cons hd rest ih =>
    obtain ⟨path, st0⟩ := hd
    show ContentOnly (if (List.lookup path targetStates).isSome = true then
      deleteExtraLoop targetStates rest else _)
    by_cases hmem : (List.lookup path targetStates).isSome = true
    · rw [if_pos hmem]
      exact ih
    · rw [if_neg hmem]
      apply contentOnly_bind (stateId_existsF _).contentOnly
      intro ex
      cases ex
      · rw [if_neg Bool.false_ne_true]
        exact ih
      · rw [if_pos rfl]
        exact contentOnly_bind
          (contentOnly_deleteF _ (startsWithS_append "content/" path))
          (fun _ => contentOnly_bind ih (fun n => (stateId_pure _).contentOnly))

theorem applyStates_ok : ∀ (states : List (String × FileState)) (s : St),
    ∃ s2, applyStatesToFileMap states s = Res.ok () s2 ∧
      s2.storage = s.storage ∧
      s2.manifest.version_history = s.manifest.version_history ∧
      s2.manifest.refs = s.manifest.refs ∧
      s2.manifest.metadata = s.manifest.metadata ∧
      s2.manifest.format_version = s.manifest.format_version ∧
      s2.manifest.rename_log = s.manifest.rename_log ∧
      ∀ p : String, List.lookup p states = none →
        List.lookup p s2.manifest.file_map = List.lookup p s.manifest.file_map := by
  intro states
  induction states with
  | nil =>
    intro s
    exact ⟨s, rfl, rfl, rfl, rfl, rfl, rfl, rfl, fun p _ => rfl⟩
  | cons hd rest ih =>
    obtain ⟨path, state⟩ := hd
    intro s
    obtain ⟨s2, hrun, hsto, hvh, hrefs, hmeta, hfv, hrl, hfm⟩ :=
      ih { s with manifest := { s.manifest with
        file_map := aUpdate s.manifest.file_map path (fun e =>
          { e with current_hash := state.hash, encrypted := state.encrypted }) } }
    refine ⟨s2, hrun, hsto, hvh, hrefs, hmeta, hfv, hrl, ?_⟩
    intro p hp
    have hcons : List.lookup p ((path, state) :: rest) = none := hp
    have hbeq : (p == path) = false := by
      cases hb : (p == path) with
      | true => rw [List.lookup, hb] at hcons; cases hcons
      | false => rfl
    have hrest : List.lookup p rest = none := by
      rw [List.lookup, hbeq] at hcons
      exact hcons
    rw [hfm p hrest]
    exact lookup_aUpdate_of_ne _ _ _ _ (beq_eq_false_iff_ne.mp hbeq)

theorem bind_ok_elim {α β : Type} {x : M α} {f : α → M β} {s : St} {out : β}
    {s1 : St} (h : M.bind x f s = Res.ok out s1) :
    ∃ a sm, x s = Res.ok a sm ∧ f a sm = Res.ok out s1 := by
  unfold M.bind at h
  cases hx : x s with
  | ok a sm =>
    rw [hx] at h
    exact ⟨a, sm, rfl, h⟩
  | err e sm =>
    rw [hx] at h
    simp at h

/-- C8: a successful restore sets the head ref to the target version id and
never mutates version_history: every version node is identical before and
after. Metadata, format version and the rename log are untouched, refs other
than head are untouched, file_map entries for paths absent from the target
file states are untouched, and storage keys outside content/ are
untouched. -/
theorem restore_execute_frame (P : Ports) (key : Option String)
    (target_id : String) (force : Bool) (s : St) (out : RestoreVersionOutput)
    (s1 : St)
    (hok : RestoreVersion.execute P key target_id force s = Res.ok out s1) :
    s1.manifest.version_history = s.manifest.version_history ∧
    List.lookup "head" s1.manifest.refs = some target_id ∧
    (∀ k, k ≠ "head" →
      List.lookup k s1.manifest.refs = List.lookup k s.manifest.refs) ∧
    s1.manifest.metadata = s.manifest.metadata ∧
    s1.manifest.format_version = s.manifest.format_version ∧
    s1.manifest.rename_log = s.manifest.rename_log ∧
    (∀ tv, s.manifest.version_history.find? (fun v => v.id == target_id) = some tv →
      ∀ p, List.lookup p tv.file_states = none →
        List.lookup p s1.manifest.file_map = List.lookup p s.manifest.file_map) ∧
    (∀ q, startsWithS q "content/" = false →
      List.lookup q s1.storage = List.lookup q s.storage) := by
  unfold RestoreVersion.execute at hok
  simp only [M.bind, M.getSt] at hok
  cases hhead : List.lookup "head" s.manifest.refs with
  | none =>
    rw [hhead] at hok
    simp [M.throw] at hok
  | some head_id =>
    rw [hhead] at hok
    simp only [] at hok
    cases hpe : (find_version_pathD s.manifest head_id target_id).isEmpty with
    | true =>
      rw [hpe] at hok
      simp [M.throw] at hok
    | false =>
      rw [hpe] at hok
      simp only [Bool.false_eq_true, if_false] at hok
      cases hfindv : s.manifest.version_history.find? (fun v => v.id == target_id) with
      | none =>
        rw [hfindv] at hok
        simp [M.throw] at hok
      | some tv =>
        rw [hfindv] at hok
        try simp only [] at hok
        obtain ⟨r1, sA, hr1, hok⟩ := bind_ok_elim hok
        obtain ⟨r2, sB, hr2, hok⟩ := bind_ok_elim hok
        obtain ⟨u1, sC, hmod, hok⟩ := bind_ok_elim hok
        obtain ⟨u2, sD, hap, hok⟩ := bind_ok_elim hok
        have hAf := contentOnly_restoreFilesLoop P key s.manifest target_id
          tv.file_states s
        rw [hr1] at hAf
        have hBf := contentOnly_deleteExtraLoop tv.file_states
          (((s.manifest.version_history.find? (fun v => v.id == head_id)).map
            Version.file_states).getD []) sA
        rw [hr2] at hBf
        have hAm : sA.manifest = s.manifest := hAf.1
        have hBm : sB.manifest = sA.manifest := hBf.1
        have hmod2 := Res.ok.inj hmod
        have hCm : sC.manifest.version_history = sB.manifest.version_history ∧
            sC.manifest.metadata = sB.manifest.metadata ∧
            sC.manifest.format_version = sB.manifest.format_version ∧
            sC.manifest.rename_log = sB.manifest.rename_log ∧
            sC.manifest.file_map = sB.manifest.file_map ∧
            sC.manifest.refs = aInsert sB.manifest.refs "head" target_id ∧
            sC.storage = sB.storage := by
          rw [← hmod2.2]
          exact ⟨rfl, rfl, rfl, rfl, rfl, rfl, rfl⟩
        obtain ⟨s2, hrun, hsto, hvh, hrefs, hmeta, hfv, hrl, hfm⟩ :=
          applyStates_ok tv.file_states sC
        rw [hrun] at hap
        have hap2 := Res.ok.inj hap
        have hfin := Res.ok.inj hok
        have hs1 : s2 = s1 := hap2.2.trans hfin.2
        refine ⟨?_, ?_, ?_, ?_, ?_, ?_, ?_, ?_⟩
        · rw [← hs1, hvh, hCm.1, hBm, hAm]
        · rw [← hs1, hrefs, hCm.2.2.2.2.2.1]
          exact lookup_aInsert_self _ _ _
        · intro k hk
          rw [← hs1, hrefs, hCm.2.2.2.2.2.1, lookup_aInsert_of_ne _ _ _ _ hk,
            hBm, hAm]
        · rw [← hs1, hmeta, hCm.2.1, hBm, hAm]
        · rw [← hs1, hfv, hCm.2.2.1, hBm, hAm]
        · rw [← hs1, hrl, hCm.2.2.2.1, hBm, hAm]
        · intro tv2 htv2 p hp
          have htveq : tv2 = tv := (Option.some.inj htv2).symm
          subst htveq
          rw [← hs1, hfm p hp, hCm.2.2.2.2.1, hBm, hAm]
        · intro q hq
          have hBst : List.lookup q sB.storage = List.lookup q sA.storage := hBf.2 q hq
          have hAst : List.lookup q sA.storage = List.lookup q s.storage := hAf.2 q hq
          rw [← hs1, hsto, hCm.2.2.2.2.2.2, hBst, hAst]

/-- Root version with no tracked files, for the restore witness. -/
def verRoot : Version :=
  { id := "v1", parent_id := none, timestamp := "T1", message := "root",
    author := "al", file_states := [] }

/-- Manifest whose head is the root version. -/
def manifestRest : Manifest :=
  { format_version := "1.0.0", metadata := metaDemo, file_map := [],
    version_history := [verRoot], refs := [("head", "v1")], rename_log := [] }

/-- State for the restore witness. -/
def stRest : St := { manifest := manifestRest, storage := [] }

/-- Expected output of the witness restore. -/
def outRest : RestoreVersionOutput :=
  { restored_version_id := "v1", files_restored := 0, patches_applied := 0 }

/-- Witness for C8: restoring the head version of a one-version manifest
succeeds, and by the frame theorem the head ref ends bound to the target. -/
theorem restore_execute_frame_witness :
    RestoreVersion.execute portsDemo none "v1" true stRest = Res.ok outRest stRest ∧
    List.lookup "head" stRest.manifest.refs = some "v1" :=
  ⟨rfl,
   (restore_execute_frame portsDemo none "v1" true stRest outRest stRest rfl).2.1⟩

/-! ## Characterization of change detection (claim C9) -/

theorem mem_of_lookup_eq_some {β : Type} (l : List (String × β)) (p : String)
    (e : β) (h : List.lookup p l = some e) : (p, e) ∈ l := by
  induction l with
  | nil => cases h
  | cons hd tl ih =>
    obtain ⟨k, v⟩ := hd
    by_cases hk : p = k
    · subst hk
      rw [List.lookup, beq_self_eq_true] at h
      have hv : v = e := Option.some.inj h
      subst hv
      exact List.mem_cons_self _ _
    · rw [List.lookup, beq_eq_false_iff_ne.mpr hk] at h
      exact List.mem_cons_of_mem _ (ih h)

theorem identifyLoop_ok (P : Ports) (m : Manifest) (st : Store) :
    ∀ fs : List String,
      (∀ f ∈ fs, ∃ v, List.lookup ("content/" ++ f) st = some v) →
      ∃ cs, identifyLoop P m st fs = Except.ok cs ∧
        (∀ pa hv, FileChange.added pa hv ∈ cs → pa ∈ fs) ∧
        (∀ pa oh hv, FileChange.modified pa oh hv ∈ cs → pa ∈ fs) ∧
        (∀ pa, FileChange.deleted pa ∉ cs) := by
  intro fs
  induction fs with
  | nil =>
    intro _
    exact ⟨[], rfl, by simp, by simp, by simp⟩
  | cons f rest ih =>
    intro h
    obtain ⟨v, hv⟩ := h f (List.mem_cons_self f rest)
    obtain ⟨cs, hcs, hadd, hmod, hdel⟩ :=
      ih (fun g hg => h g (List.mem_cons_of_mem f hg))
    have hread : st.readS ("content/" ++ f) = Except.ok v := by
      unfold Store.readS
      rw [hv]
    cases hfm : List.lookup f m.file_map with
    | none =>
      refine ⟨FileChange.added f (P.hashF v) :: cs, ?_, ?_, ?_, ?_⟩
      · simp [identifyLoop, hread, hcs, hfm, Except.bind, Bind.bind]
      · intro pa hv2 hmem
        rcases List.mem_cons.mp hmem with h1 | h1
        · cases h1
          exact List.mem_cons_self f rest
        · exact List.mem_cons_of_mem f (hadd pa hv2 h1)
      · intro pa oh hv2 hmem
        rcases List.mem_cons.mp hmem with h1 | h1
        · cases h1
        · exact List.mem_cons_of_mem f (hmod pa oh hv2 h1)
      · intro pa hmem
        rcases List.mem_cons.mp hmem with h1 | h1
        · cases h1
        · exact hdel pa h1
    | some fe =>
      cases hch : fe.current_hash with
      | none =>
        refine ⟨FileChange.added f (P.hashF v) :: cs, ?_, ?_, ?_, ?_⟩
        · simp [identifyLoop, hread, hcs, hfm, hch, Except.bind, Bind.bind]
        · intro pa hv2 hmem
          rcases List.mem_cons.mp hmem with h1 | h1
          · cases h1
            exact List.mem_cons_self f rest
          · exact List.mem_cons_of_mem f (hadd pa hv2 h1)
        · intro pa oh hv2 hmem
          rcases List.mem_cons.mp hmem with h1 | h1
          · cases h1
          · exact List.mem_cons_of_mem f (hmod pa oh hv2 h1)
        · intro pa hmem
          rcases List.mem_cons.mp hmem with h1 | h1
          · cases h1
          · exact hdel pa h1
      | some old =>
        by_cases hne : old ≠ P.hashF v
        · refine ⟨FileChange.modified f old (P.hashF v) :: cs, ?_, ?_, ?_, ?_⟩
          · simp [identifyLoop, hread, hcs, hfm, hch, hne, Except.bind, Bind.bind]
          · intro pa hv2 hmem
            rcases List.mem_cons.mp hmem with h1 | h1
            · cases h1
            · exact List.mem_cons_of_mem f (hadd pa hv2 h1)
          · intro pa oh hv2 hmem
            rcases List.mem_cons.mp hmem with h1 | h1
            · cases h1
              exact List.mem_cons_self f rest
            · exact List.mem_cons_of_mem f (hmod pa oh hv2 h1)
          · intro pa hmem
            rcases List.mem_cons.mp hmem with h1 | h1
            · cases h1
            · exact hdel pa h1
        · refine ⟨cs, ?_, ?_, ?_, ?_⟩
          · simp [identifyLoop, hread, hcs, hfm, hch, hne, Except.bind, Bind.bind]
          · intro pa hv2 hmem
            exact List.mem_cons_of_mem f (hadd pa hv2 hmem)
          · intro pa oh hv2 hmem
            exact List.mem_cons_of_mem f (hmod pa oh hv2 hmem)
          · exact hdel

/-- Every name in the content listing is readable: its full key is present
in the store. -/
theorem listS_readable (st : Store) (f : String)
    (hf : f ∈ st.listS "content/") :
    ∃ v, List.lookup ("content/" ++ f) st = some v := by
  have hdir : endsWithChar "content/" '/' = true := by decide
  rw [mem_listS_iff st "content/" f hdir] at hf
  have := (lookup_isSome_iff_mem_keys st ("content/" ++ f)).mpr hf.1
  exact Option.isSome_iff_exists.mp this

/-- identify_changes never fails on the memory storage, added and modified
changes only name listed paths, and every file_map path missing from the
listing is classified deleted. -/
theorem identify_changes_spec (P : Ports) (m : Manifest) (st : Store) :
    ∃ cs, identify_changes P m st = Except.ok cs ∧
      (∀ pa hv, FileChange.added pa hv ∈ cs → pa ∈ st.listS "content/") ∧
      (∀ pa oh hv, FileChange.modified pa oh hv ∈ cs → pa ∈ st.listS "content/") ∧
      (∀ pa e2, List.lookup pa m.file_map = some e2 →
        (st.listS "content/").contains pa = false → FileChange.deleted pa ∈ cs) := by
  obtain ⟨cs0, h0, hadd, hmod, hdel⟩ :=
    identifyLoop_ok P m st (st.listS "content/") (listS_readable st)
  refine ⟨cs0 ++ m.file_map.filterMap (fun pe =>
    if (st.listS "content/").contains pe.1 then none
    else some (FileChange.deleted pe.1)), ?_, ?_, ?_, ?_⟩
  · simp [identify_changes, h0, Except.bind, Bind.bind]
  · intro pa hv hmem
    rcases List.mem_append.mp hmem with h1 | h1
    · exact hadd pa hv h1
    · exfalso
      rw [List.mem_filterMap] at h1
      obtain ⟨pe, _, hpe⟩ := h1
      by_cases hc : (st.listS "content/").contains pe.1 = true
      · rw [if_pos hc] at hpe
        cases hpe
      · rw [if_neg hc] at hpe
        cases hpe
  · intro pa oh hv hmem
    rcases List.mem_append.mp hmem with h1 | h1
    · exact hmod pa oh hv h1
    · exfalso
      rw [List.mem_filterMap] at h1
      obtain ⟨pe, _, hpe⟩ := h1
      by_cases hc : (st.listS "content/").contains pe.1 = true
      · rw [if_pos hc] at hpe
        cases hpe
      · rw [if_neg hc] at hpe
        cases hpe
  · intro pa e2 hent habs
    refine List.mem_append.mpr (Or.inr ?_)
    rw [List.mem_filterMap]
    refine ⟨(pa, e2), mem_of_lookup_eq_some _ _ _ hent, ?_⟩
    rw [if_neg (by rw [habs]; exact Bool.false_ne_true)]

theorem StateId.toManifestConst {α : Type} {x : M α} (h : StateId x) :
    ManifestConst x := h.contentOnly.manifestConst

/-- Lookup in the file_map is untouched by the computation. -/
def FileMapAt (p : String) {α : Type} (x : M α) : Prop :=
  ∀ s : St, List.lookup p (Res.state (x s)).manifest.file_map =
    List.lookup p s.manifest.file_map

theorem ManifestConst.fileMapAt {α : Type} {x : M α} (h : ManifestConst x)
    (p : String) : FileMapAt p x := by
  intro s
  rw [h s]

theorem fileMapAt_bind {p : String} {α β : Type} {x : M α} {f : α → M β}
    (hx : FileMapAt p x) (hf : ∀ a, FileMapAt p (f a)) : FileMapAt p (M.bind x f) := by
  intro s
  have hx1 := hx s
  unfold M.bind
  cases hxs : x s with
  | ok a s1 =>
    rw [hxs] at hx1
    exact ((hf a s1)).trans hx1
  | err e s1 =>
    rw [hxs] at hx1
    exact hx1

theorem manifestConst_processTextOne (P : Ports) (key : Option String)
    (vid : String) (m : Manifest) (path oh : String) :
    ManifestConst (processTextOne P key vid m path oh) := by
  simp only [processTextOne]
  by_cases ht :
      ((List.lookup path m.file_map).map (fun e => e.file_type.isTextB)).getD false = true
  · rw [if_pos ht]
    apply manifestConst_bind (stateId_readF _).toManifestConst
    intro new_text
    apply manifestConst_bind (stateId_readF _).toManifestConst
    intro old0
    apply manifestConst_bind
    · by_cases he :
          ((List.lookup path m.file_map).bind FileEntry.encrypted).getD false = true
      · rw [if_pos he]
        cases key with
        | none => exact (stateId_throw _).toManifestConst
        | some k => exact (stateId_liftE _).toManifestConst
      · rw [if_neg he]
        exact (stateId_pure _).toManifestConst
    · intro old_text
      exact manifestConst_writeF _ _
  · rw [if_neg ht]
    exact (stateId_pure _).toManifestConst

theorem manifestConst_processTextLoop (P : Ports) (key : Option String)
    (vid : String) (m : Manifest) :
    ∀ changes, ManifestConst (processTextLoop P key vid m changes) := by
  intro changes
  induction changes with
  | nil => exact (stateId_pure _).toManifestConst
  | cons c rest ih =>
    cases c with
    | modified path oh nh =>
      exact manifestConst_bind (manifestConst_processTextOne P key vid m path oh)
        (fun _ => ih)
    | added path hv => exact ih
    | deleted path => exact ih

theorem noPF_processTextOne_noKey (P : Ports) (vid : String) (m : Manifest)
    (path oh : String) : NoPF (processTextOne P none vid m path oh) := by
  simp only [processTextOne]
  by_cases ht :
      ((List.lookup path m.file_map).map (fun e => e.file_type.isTextB)).getD false = true
  · rw [if_pos ht]
    apply noPF_bind (noPF_readF _)
    intro new_text
    apply noPF_bind (noPF_readF _)
    intro old0
    apply noPF_bind
    · by_cases he :
          ((List.lookup path m.file_map).bind FileEntry.encrypted).getD false = true
      · rw [if_pos he]
        exact noPF_throwEnc _
      · rw [if_neg he]
        exact noPF_pure _
    · intro old_text
      exact noPF_writeF _ _
  · rw [if_neg ht]
    exact noPF_pure _

theorem noPF_processTextLoop_noKey (P : Ports) (vid : String) (m : Manifest) :
    ∀ changes, NoPF (processTextLoop P none vid m changes) := by
  intro changes
  induction changes with
  | nil => exact noPF_pure _
  | cons c rest ih =>
    cases c with
    | modified path oh nh =>
      exact noPF_bind (noPF_processTextOne_noKey P vid m path oh) (fun _ => ih)
    | added path hv => exact ih
    | deleted path => exact ih

theorem noPF_processFullOne (P : Ports) (key : Option String) (now : String)
    (path hv : String) : NoPF (processFullOne P key now path hv) := by
  unfold processFullOne
  apply noPF_bind (noPF_existsF _)
  intro ex
  apply noPF_bind
  · cases ex
    · rw [if_neg Bool.false_ne_true]
      apply noPF_bind (noPF_readF _)
      intro content
      exact noPF_writeF _ _
    · rw [if_pos rfl]
      exact noPF_pure _
  · intro _
    exact noPF_modifyManifest _

theorem noPF_processFullLoop (P : Ports) (key : Option String) (now : String) :
    ∀ changes, NoPF (processFullLoop P key now changes) := by
  intro changes
  induction changes with
  | nil => exact noPF_pure _
  | cons c rest ih =>
    cases c with
    | added path hv => exact noPF_bind (noPF_processFullOne P key now path hv) (fun _ => ih)
    | modified path oh hv =>
      exact noPF_bind (noPF_processFullOne P key now path hv) (fun _ => ih)
    | deleted path => exact ih

theorem fileMapAt_processFullOne (P : Ports) (key : Option String) (now : String)
    (path hv p : String) (hne : path ≠ p) :
    FileMapAt p (processFullOne P key now path hv) := by
  unfold processFullOne
  apply fileMapAt_bind ((stateId_existsF _).toManifestConst.fileMapAt p)
  intro ex
  apply fileMapAt_bind
  · cases ex
    · rw [if_neg Bool.false_ne_true]
      apply fileMapAt_bind ((stateId_readF _).toManifestConst.fileMapAt p)
      intro content
      exact (manifestConst_writeF _ _).fileMapAt p
    · rw [if_pos rfl]
      exact (stateId_pure _).toManifestConst.fileMapAt p
  · intro _
    intro s
    show List.lookup p (aUpdate s.manifest.file_map path _) =
      List.lookup p s.manifest.file_map
    exact lookup_aUpdate_of_ne _ _ _ _ (Ne.symm hne)

theorem fileMapAt_processFullLoop (P : Ports) (key : Option String) (now : String)
    (p : String) :
    ∀ changes, (∀ pa hv, FileChange.added pa hv ∈ changes → pa ≠ p) →
      (∀ pa oh hv, FileChange.modified pa oh hv ∈ changes → pa ≠ p) →
      FileMapAt p (processFullLoop P key now changes) := by
  intro changes
  induction changes with
  | nil =>
    intro _ _
    exact (stateId_pure _).toManifestConst.fileMapAt p
  | cons c rest ih =>
    intro ha hm
    cases c with
    | added path hv =>
      exact fileMapAt_bind
        (fileMapAt_processFullOne P key now path hv p
          (ha path hv (List.mem_cons_self _ _)))
        (fun _ => ih (fun pa hv2 hmem => ha pa hv2 (List.mem_cons_of_mem _ hmem))
          (fun pa oh hv2 hmem => hm pa oh hv2 (List.mem_cons_of_mem _ hmem)))
    | modified path oh hv =>
      exact fileMapAt_bind
        (fileMapAt_processFullOne P key now path hv p
          (hm path oh hv (List.mem_cons_self _ _)))
        (fun _ => ih (fun pa hv2 hmem => ha pa hv2 (List.mem_cons_of_mem _ hmem))
          (fun pa oh2 hv2 hmem => hm pa oh2 hv2 (List.mem_cons_of_mem _ hmem)))
    | deleted path =>
      exact ih (fun pa hv2 hmem => ha pa hv2 (List.mem_cons_of_mem _ hmem))
        (fun pa oh2 hv2 hmem => hm pa oh2 hv2 (List.mem_cons_of_mem _ hmem))

theorem fileMapAt_modify (p : String) (f : Manifest → Manifest)
    (hf : ∀ m, (f m).file_map = m.file_map) : FileMapAt p (M.modifyManifest f) := by
  intro s
  show List.lookup p (f s.manifest).file_map = List.lookup p s.manifest.file_map
  rw [hf s.manifest]

/-- On success, a checkpoint leaves the file_map binding of p untouched
provided no added or modified change names p. -/
theorem execute_fileMapAt_cond (P : Ports) (key : Option String)
    (message author version_id now : String) (p : String) (s : St)
    (out : SaveCheckpointOutput) (s1 : St)
    (hok : SaveCheckpoint.execute P key message author version_id now s =
      Res.ok out s1)
    (hcond : ∀ cs, identify_changes P s.manifest s.storage = Except.ok cs →
      (∀ pa hv, FileChange.added pa hv ∈ cs → pa ≠ p) ∧
      (∀ pa oh hv, FileChange.modified pa oh hv ∈ cs → pa ≠ p)) :
    List.lookup p s1.manifest.file_map = List.lookup p s.manifest.file_map := by
  simp only [SaveCheckpoint.execute] at hok
  cases hid2 : identify_changes P s.manifest s.storage with
  | error e =>
    rw [hid2] at hok
    simp at hok
  | ok cs =>
    rw [hid2] at hok
    simp only [] at hok
    obtain ⟨hpa, hpm⟩ := hcond cs hid2
    cases hne2 : cs.isEmpty with
    | true =>
      rw [hne2] at hok
      simp at hok
    | false =>
      rw [hne2] at hok
      simp only [Bool.false_eq_true, if_false] at hok
      obtain ⟨u1, sT, hT, hok⟩ := bind_ok_elim hok
      obtain ⟨u2, sF, hF, hok⟩ := bind_ok_elim hok
      obtain ⟨s2v, sG, hG, hok⟩ := bind_ok_elim hok
      obtain ⟨u3, s5, h5, hok⟩ := bind_ok_elim hok
      obtain ⟨u4, s6, h6, hok⟩ := bind_ok_elim hok
      obtain ⟨u5, s7, h7, hok⟩ := bind_ok_elim hok
      have hfin := Res.ok.inj hok
      have hTf : List.lookup p sT.manifest.file_map =
          List.lookup p s.manifest.file_map := by
        have h :=
          (manifestConst_processTextLoop P key version_id s.manifest cs).fileMapAt p s
        rw [hT] at h
        exact h
      have hFf : List.lookup p sF.manifest.file_map =
          List.lookup p sT.manifest.file_map := by
        have h := fileMapAt_processFullLoop P key now p cs hpa hpm sT
        rw [hF] at h
        exact h
      have hGeq := Res.ok.inj hG
      have hGf : sG = sF := hGeq.2.symm
      have h5eq := Res.ok.inj h5
      have h5f : List.lookup p s5.manifest.file_map =
          List.lookup p sG.manifest.file_map := by
        rw [← h5eq.2]
      have h6eq := Res.ok.inj h6
      have h6f : List.lookup p s6.manifest.file_map =
          List.lookup p s5.manifest.file_map := by
        rw [← h6eq.2]
      have h7eq := Res.ok.inj h7
      have h7f : List.lookup p s7.manifest.file_map =
          List.lookup p s6.manifest.file_map := by
        rw [← h7eq.2]
      have hs17 : s1 = s7 := hfin.2.symm
      rw [hs17, h7f, h6f, h5f, hGf, hFf, hTf]

/-- C9: the checkpoint never removes file_map entries. With a file_map entry
for p carrying a current hash while p is absent from the content listing,
change detection classifies p as deleted, the checkpoint does not fail with
the patch-failed no-changes error, and when it succeeds the file_map binding
of p afterwards is exactly the entry from before, old current_hash included,
so every subsequent checkpoint classifies p as deleted again. -/
theorem checkpoint_deleted_path_keeps_entry (P : Ports)
    (message author version_id now : String) (s : St) (p : String)
    (e : FileEntry)
    (hent : List.lookup p s.manifest.file_map = some e)
    (habs : (s.storage.listS "content/").contains p = false) :
    (match identify_changes P s.manifest s.storage with
     | Except.ok cs => FileChange.deleted p ∈ cs
     | Except.error _ => False) ∧
    Res.isPF (SaveCheckpoint.execute P none message author version_id now s) = false ∧
    (match SaveCheckpoint.execute P none message author version_id now s with
     | Res.ok _ s1 => List.lookup p s1.manifest.file_map = some e
     | Res.err _ _ => True) := by
  obtain ⟨cs, hid, hadd, hmod, hdel⟩ := identify_changes_spec P s.manifest s.storage
  have hdelmem : FileChange.deleted p ∈ cs := hdel p e hent habs
  have hne : cs.isEmpty = false := by
    cases cs
    · cases hdelmem
    · rfl
  have hpa : ∀ pa hv, FileChange.added pa hv ∈ cs → pa ≠ p := by
    intro pa hv hmem hpe
    subst hpe
    have hmem2 := hadd pa hv hmem
    have hc : (s.storage.listS "content/").contains pa = true :=
      List.elem_iff.mpr hmem2
    rw [habs] at hc
    cases hc
  have hpm : ∀ pa oh hv, FileChange.modified pa oh hv ∈ cs → pa ≠ p := by
    intro pa oh hv hmem hpe
    subst hpe
    have hmem2 := hmod pa oh hv hmem
    have hc : (s.storage.listS "content/").contains pa = true :=
      List.elem_iff.mpr hmem2
    rw [habs] at hc
    cases hc
  refine ⟨?_, ?_, ?_⟩
  · rw [hid]
    exact hdelmem
  · simp only [SaveCheckpoint.execute]
    rw [hid]
    simp only [hne, Bool.false_eq_true, if_false]
    exact (noPF_bind (noPF_processTextLoop_noKey P version_id s.manifest cs)
      (fun _ => noPF_bind (noPF_processFullLoop P none now cs)
        (fun _ => noPF_bind noPF_getSt (fun s2 =>
          noPF_bind (noPF_modifyManifest _) (fun _ =>
          noPF_bind (noPF_modifyManifest _) (fun _ =>
          noPF_bind (noPF_modifyManifest _) (fun _ => noPF_pure _))))))) s
  · cases hex : SaveCheckpoint.execute P none message author version_id now s with
    | err e2 s1 => trivial
    | ok out s1 =>
      show List.lookup p s1.manifest.file_map = some e
      rw [execute_fileMapAt_cond P none message author version_id now p s out s1 hex
        (fun cs2 hid2 => by
          rw [hid] at hid2
          have hcs : cs2 = cs := (Except.ok.inj hid2).symm
          subst hcs
          exact ⟨hpa, hpm⟩)]
      exact hent

/-- Entry for a tracked file that is gone from the working copy. -/
def entryGone : FileEntry :=
  { inode_id := "i9", file_type := FileType.binary, current_hash := some "h0",
    created := "T0", modified := "T0", encrypted := none }

/-- Manifest tracking gone.bin while the working copy is empty. -/
def manifestDel : Manifest :=
  { format_version := "1.0.0", metadata := metaDemo,
    file_map := [("gone.bin", entryGone)], version_history := [],
    refs := [("head", "")], rename_log := [] }

/-- State for the deleted-path witness. -/
def stDel : St := { manifest := manifestDel, storage := [] }

/-- Witness for C9 at a concrete manifest with one tracked but absent
file. -/
theorem checkpoint_deleted_path_keeps_entry_witness :
    (match identify_changes portsDemo stDel.manifest stDel.storage with
     | Except.ok cs => FileChange.deleted "gone.bin" ∈ cs
     | Except.error _ => False) ∧
    Res.isPF (SaveCheckpoint.execute portsDemo none "m" "a" "v9" "T1" stDel) = false ∧
    (match SaveCheckpoint.execute portsDemo none "m" "a" "v9" "T1" stDel with
     | Res.ok _ s1 => List.lookup "gone.bin" s1.manifest.file_map = some entryGone
     | Res.err _ _ => True) :=
  checkpoint_deleted_path_keeps_entry portsDemo "m" "a" "v9" "T1" stDel "gone.bin"
    entryGone rfl rfl

end Kamaros

